import Mathlib

/-!
Shallow embedding of the `CustomHashTable<Key, Value>` class from
`src/ConsoleApplication2.cpp`, an open-addressing hash table with linear
probing, tombstone deletion and doubling growth.  Machine `size_t`
arithmetic never overflows in the operations modelled here (all index
arithmetic is `% table_size`), so indices are `Nat`.  The C++ `Entry*`
cells of `std::vector<Entry*>` are modelled as `Option (Entry K V)`:
`none` is a null pointer (a never-used slot), `some e` with
`e.in_use = true` is a live entry, and `some e` with `e.in_use = false`
is a tombstone.  `std::hash<Key>` is an arbitrary parameter
`hf : K → Nat`; the `check_key` null-pointer test is an arbitrary
parameter `isNull : K → Bool` (for non-pointer key types it is constantly
`false`, for `int*`/`char*` it is the `key == nullptr` test).  The
mutexes only serialise the operations, so the sequential semantics is
the state-passing one given here.  The unbounded recursion of `insert`
(retry after `resize`) is modelled with explicit fuel: a result of
`none` for every fuel value is exactly non-termination of the C++ code.
-/

namespace HashTable

/-- One heap-allocated `Entry` of the C++ table: key, value, and the
`in_use` liveness flag (`std::atomic<bool>` in the source; atomicity is
irrelevant to the sequential semantics). -/
structure Entry (K V : Type) where
  key : K
  value : V
  in_use : Bool
  deriving DecidableEq

/-- The `CustomHashTable` state: the slot vector (`std::vector<Entry*> table`),
`table_size` and `item_count`. -/
structure HT (K V : Type) where
  table : List (Option (Entry K V))
  table_size : Nat
  item_count : Nat
  deriving DecidableEq

variable {K V : Type} [DecidableEq K] [DecidableEq V]

/-- Read slot `i` of the table (`table[index]`); out-of-range reads the
null default, which never happens for the in-bounds indices the
operations produce. -/
def slotAt (st : HT K V) (i : Nat) : Option (Entry K V) :=
  st.table.getD i none

/-- `true` on a slot holding a live entry (non-null pointer with
`in_use` set). -/
def liveP : Option (Entry K V) → Bool
  | some e => e.in_use
  | none => false

/-- Number of live slots of a slot list. -/
def liveCountL (t : List (Option (Entry K V))) : Nat :=
  t.countP liveP

/-- Number of live slots of the table. -/
def liveCount (st : HT K V) : Nat :=
  liveCountL st.table

/-- The key stored at slot `i` when that slot is live, else `none`. -/
def liveKeyAt (st : HT K V) (i : Nat) : Option K :=
  match slotAt st i with
  | some e => if e.in_use then some e.key else none
  | none => none

/-- The value stored at slot `i` (live or tombstoned), else `none`. -/
def valAt (st : HT K V) (i : Nat) : Option V :=
  (slotAt st i).map Entry.value

/-- The constructor `CustomHashTable(size_t initial_size = 16)`:
`table.resize(initial_size, nullptr)`, `table_size = initial_size`,
`item_count = 0`.  Note: no check that the capacity is positive. -/
def mkTable (K V : Type) (initial_size : Nat) : HT K V :=
  ⟨List.replicate initial_size none, initial_size, 0⟩

variable (hf : K → Nat) (isNull : K → Bool)

/-- The private member `hash`: `std::hash<Key>{}(key) % table_size`. -/
def hashIdx (st : HT K V) (k : K) : Nat :=
  hf k % st.table_size

/-- Outcome of the probe loop shared (textually) by `insert`, `find` and
`remove`: first live slot whose key matches, or first null slot, or a
full wrap back to the original index. -/
inductive ProbeRes where
  | found (i : Nat)
  | empty (i : Nat)
  | wrap
  deriving DecidableEq

/-- The loop `while (table[index]) { if (in_use && key match) ...;
index = (index+1) % table_size; if (index == original_index) ... }`.
`fuel` counts the slots still allowed to be examined; it starts at
`table_size`, since the loop examines exactly `table_size` slots before
`index == original_index` stops it. -/
def probeGo (t : List (Option (Entry K V))) (sz : Nat) (k : K) :
    Nat → Nat → ProbeRes
  | _, 0 => .wrap
  | idx, fuel + 1 =>
    match t.getD idx none with
    | none => .empty idx
    | some e =>
      if e.in_use = true ∧ e.key = k then .found idx
      else probeGo t sz k ((idx + 1) % sz) fuel

/-- The probe of the current table starting at `hash(key)`. -/
def probe (st : HT K V) (k : K) : ProbeRes :=
  probeGo st.table st.table_size k (hashIdx hf st k) st.table_size

/-- The `while (new_table[index]) index = (index + 1) % new_size;` scan
of `resize`, searching the first null slot of the new table.  The C++
loop is unguarded; fuel `sz` is enough whenever a null slot exists,
which is proved to always be the case where `resize` runs it. -/
def findFree (t : List (Option (Entry K V))) (sz : Nat) :
    Nat → Nat → Option Nat
  | _, 0 => none
  | idx, fuel + 1 =>
    if (t.getD idx none).isSome then findFree t sz ((idx + 1) % sz) fuel
    else some idx

/-- One iteration of `resize`'s rehash loop body: a live entry is placed
at the first null slot of the new table scanning from
`hash(key) % new_size`; null and tombstoned old slots are skipped. -/
def rehashStep (nsz : Nat) (nt : List (Option (Entry K V))) :
    Option (Entry K V) → List (Option (Entry K V))
  | some e =>
    if e.in_use then
      match findFree nt nsz (hf e.key % nsz) nsz with
      | some i => nt.set i (some e)
      | none => nt
    else nt
  | none => nt

/-- The `for (auto& entry : table)` rehash of `resize`, building
`new_table` from `std::vector<Entry*>(new_size, nullptr)`. -/
def rehash (t : List (Option (Entry K V))) (nsz : Nat) :
    List (Option (Entry K V)) :=
  t.foldl (rehashStep hf nsz) (List.replicate nsz none)

/-- `resize()`: under the resize mutex, if `item_count * 2 > table_size`
rebuild at double capacity, rehashing live entries and dropping
tombstones; otherwise do nothing. -/
def resize (st : HT K V) : HT K V :=
  if st.item_count * 2 > st.table_size then
    { table := rehash hf st.table (st.table_size * 2),
      table_size := st.table_size * 2,
      item_count := st.item_count }
  else st

/-- Overwrite branch of `insert`: `table[index]->value = value`. -/
def overwriteAt (st : HT K V) (i : Nat) (v : V) : HT K V :=
  { st with table := st.table.set i ((st.table.getD i none).map (fun e => { e with value := v })) }

/-- Fresh-slot branch of `insert`: allocate the entry, store key and
value, set `in_use`, `item_count++`. -/
def writeAt (st : HT K V) (i : Nat) (k : K) (v : V) : HT K V :=
  { st with
    table := st.table.set i (some ⟨k, v, true⟩)
    item_count := st.item_count + 1 }

/-- The body of `insert` after `check_key`: `resize()`, then the probe
loop; on a full wrap, `resize()` and a recursive retry
(`return insert(key, value)`, whose first action is again `resize()`).
The C++ recursion is unbounded; `fuel` bounds the modelled recursion
depth, and `none` at every fuel is non-termination. -/
def insertAux : Nat → HT K V → K → V → Option (HT K V)
  | 0, _, _, _ => none
  | fuel + 1, st, k, v =>
    match probe hf (resize hf st) k with
    | .found i => some (overwriteAt (resize hf st) i v)
    | .empty i => some (writeAt (resize hf st) i k v)
    | .wrap => insertAux fuel (resize hf (resize hf st)) k v

/-- `insert(key, value)`: `check_key` first (returning `false` with no
mutation on a null key), then the locked body.  Returns the C++ return
value paired with the post state; `none` is non-termination. -/
def insert (fuel : Nat) (st : HT K V) (k : K) (v : V) :
    Option (Bool × HT K V) :=
  if isNull k then some (false, st)
  else (insertAux hf fuel st k v).map fun s => (true, s)

/-- The value `find(key, result)` assigns through `result` (`none` when
it returns `false`): `check_key`, then the probe loop, reading
`table[index]->value` on a live match. -/
def findVal (st : HT K V) (k : K) : Option V :=
  if isNull k then none
  else
    match probe hf st k with
    | .found i => (st.table.getD i none).map Entry.value
    | _ => none

/-- `find` as a state transformer: the method is `const` and its body
performs no writes to the table, `table_size` or `item_count`, so the
post state is the input state. -/
def find (st : HT K V) (k : K) : Option V × HT K V :=
  (findVal hf isNull st k, st)

/-- Tombstoning branch of `remove`: `table[index]->in_use.store(false)`
and `item_count--`. -/
def tombstoneAt (st : HT K V) (i : Nat) : HT K V :=
  { st with
    table := st.table.set i ((st.table.getD i none).map (fun e => { e with in_use := false }))
    item_count := st.item_count - 1 }

/-- `remove(key)`: `check_key`, the probe loop, and on a live match
`in_use.store(false)` and `item_count--`. -/
def remove (st : HT K V) (k : K) : Bool × HT K V :=
  if isNull k then (false, st)
  else
    match probe hf st k with
    | .found i => (true, tombstoneAt st i)
    | _ => (false, st)

/-- `size()`: returns `item_count`, touching nothing. -/
def size (st : HT K V) : Nat × HT K V :=
  (st.item_count, st)

/-- `k` is held, with value `v`, by some live slot. -/
def LiveKV (st : HT K V) (k : K) (v : V) : Prop :=
  ∃ i, i < st.table.length ∧ liveKeyAt st i = some k ∧ valAt st i = some v

/-- `k` is held by some live slot. -/
def LiveK (st : HT K V) (k : K) : Prop :=
  ∃ i, i < st.table.length ∧ liveKeyAt st i = some k

/-- The probe start index recorded for the entry stored at slot `i`
(`hash(key) % table_size` of that entry's key); `0` for a null slot. -/
def startOf (st : HT K V) (i : Nat) : Nat :=
  match slotAt st i with
  | some e => hf e.key % st.table_size
  | none => 0

/-- Well-formedness of a table state, the conjunction of the data-model
invariants of the source: `table_size` is the slot-vector length and is
positive, `item_count` counts the live slots, at most one live slot per
key, and every live slot is reachable from its key's hash index by +1
probing (wrapping) without crossing a null slot first. -/
def WF (st : HT K V) : Prop :=
  st.table_size = st.table.length ∧
  0 < st.table_size ∧
  st.item_count = liveCount st ∧
  (∀ i1, i1 < st.table_size → ∀ i2, i2 < st.table_size →
    (liveKeyAt st i1).isSome = true → liveKeyAt st i1 = liveKeyAt st i2 → i1 = i2) ∧
  (∀ i, i < st.table_size → (liveKeyAt st i).isSome = true →
    ∃ j, j < st.table_size ∧ i = (startOf hf st i + j) % st.table_size ∧
      ∀ m, m < j → (slotAt st ((startOf hf st i + m) % st.table_size)).isSome = true)

instance (st : HT K V) : Decidable (WF hf st) := by
  unfold WF
  infer_instance

instance (st : HT K V) (k : K) : Decidable (LiveK st k) := by
  unfold LiveK
  infer_instance

instance (st : HT K V) (k : K) (v : V) : Decidable (LiveKV st k v) := by
  unfold LiveKV
  infer_instance

/-- Number of occupied (non-null) slots of a slot list. -/
def occCountL (t : List (Option (Entry K V))) : Nat :=
  t.countP (fun s => s.isSome)

/-- Slots `(idx + m) % sz` for `m < j` are all occupied and none of them
is a live slot holding `k`: the probe walked past all of them. -/
def NoMatchBelow (t : List (Option (Entry K V))) (sz : Nat) (k : K) (idx j : Nat) : Prop :=
  ∀ m, m < j → ∃ e, t.getD ((idx + m) % sz) none = some e ∧ (e.in_use = true → e.key ≠ k)

/-- The identity hash used for the concrete executions below (the usual
`std::hash<int>` behaviour). -/
def hfId : Nat → Nat := fun n => n

/-- `check_key` for a non-pointer key type: every key is valid. -/
def noNull : Nat → Bool := fun _ => false

/-- A table reached from `CustomHashTable(4)` by
`insert(0,10); insert(1,11); remove(0); insert(2,12); remove(1);
insert(3,13)` (identity hash): two live slots, two tombstones, no null
slot, `item_count = 2`, `table_size = 4`. -/
def stC2 : HT Nat Nat :=
  ⟨[some ⟨0, 10, false⟩, some ⟨1, 11, false⟩, some ⟨2, 12, true⟩, some ⟨3, 13, true⟩], 4, 2⟩

/-- The operation chain producing `stC2` from the constructor. -/
def c2Chain : Option (HT Nat Nat) :=
  (insertAux hfId 2 (mkTable Nat Nat 4) 0 10).bind fun s1 =>
  (insertAux hfId 2 s1 1 11).bind fun s2 =>
  (some (remove hfId noNull s2 0).2).bind fun s3 =>
  (insertAux hfId 2 s3 2 12).bind fun s4 =>
  (some (remove hfId noNull s4 1).2).bind fun s5 =>
  insertAux hfId 2 s5 3 13

/-- A small well-formed concrete table (capacity 4, key 1 ↦ 5 live)
used to instantiate the general theorems. -/
def stW : HT Nat Nat :=
  ⟨[none, some ⟨1, 5, true⟩, none, none], 4, 1⟩

/-- A concrete table over half full (capacity 2, two live keys), on
which the growth trigger fires. -/
def stG : HT Nat Nat :=
  ⟨[some ⟨0, 5, true⟩, some ⟨1, 6, true⟩], 2, 2⟩

/-- A concrete table with a tombstone (key 2 removed) next to a live
key, used to instantiate the tombstone-behaviour theorems. -/
def stT : HT Nat Nat :=
  ⟨[none, some ⟨1, 5, true⟩, some ⟨2, 6, false⟩, none], 4, 1⟩

/-! ### List access and counting helper lemmas -/

theorem getD_set_self {α : Type _} (l : List α) (i : Nat) (a d : α) (h : i < l.length) :
    (l.set i a).getD i d = a := by
  have h' : i < (l.set i a).length := by simpa using h
  rw [List.getD_eq_getElem _ _ h', List.getElem_set_self]

theorem getD_set_ne {α : Type _} (l : List α) {i j : Nat} (h : i ≠ j) (a d : α) :
    (l.set i a).getD j d = l.getD j d := by
  rw [List.getD_eq_getElem?_getD, List.getD_eq_getElem?_getD, List.getElem?_set_ne h]

theorem lt_length_of_getD_some {β : Type _} {l : List (Option β)} {j : Nat} {e : β}
    (h : l.getD j none = some e) : j < l.length := by
  by_contra hj
  rw [List.getD_eq_default _ _ (Nat.le_of_not_lt hj)] at h
  exact Option.noConfusion h

theorem getD_replicate_none {β : Type _} (n j : Nat) :
    (List.replicate n (none : Option β)).getD j none = none := by
  rw [List.getD_eq_getElem?_getD, List.getElem?_replicate]
  split <;> rfl

theorem countP_getD_set {β : Type _} (p : Option β → Bool) (l : List (Option β)) (i : Nat)
    (a : Option β) (h : i < l.length) :
    (l.set i a).countP p =
      l.countP p - (if p (l.getD i none) then 1 else 0) + (if p a then 1 else 0) := by
  rw [List.countP_set p l i a h, List.getD_eq_getElem l none h]

theorem countP_pos_of_getD {β : Type _} {p : Option β → Bool} {l : List (Option β)} {i : Nat}
    {e : β} (hget : l.getD i none = some e) (hp : p (some e) = true) : 0 < l.countP p := by
  have hi : i < l.length := lt_length_of_getD_some hget
  refine List.countP_pos_iff.mpr ⟨l[i], List.getElem_mem hi, ?_⟩
  rw [← List.getD_eq_getElem l none hi, hget]
  exact hp

theorem two_le_countP {α : Type _} (p : α → Bool) :
    ∀ (l : List α) (j1 j2 : Nat) (h1 : j1 < l.length) (h2 : j2 < l.length), j1 ≠ j2 →
      p l[j1] = true → p l[j2] = true → 2 ≤ l.countP p := by
  intro l
  induction l with
  | nil => intro j1 j2 h1; simp at h1
  | cons a tl ih =>
    intro j1 j2 h1 h2 hne hp1 hp2
    match j1, j2 with
    | 0, 0 => exact absurd rfl hne
    | 0, k + 1 =>
      rw [List.getElem_cons_zero] at hp1
      rw [List.getElem_cons_succ] at hp2
      have hk : k < tl.length := by simpa using h2
      have : 0 < tl.countP p :=
        List.countP_pos_iff.mpr ⟨tl[k], List.getElem_mem hk, hp2⟩
      rw [List.countP_cons, if_pos hp1]
      omega
    | m + 1, 0 =>
      rw [List.getElem_cons_zero] at hp2
      rw [List.getElem_cons_succ] at hp1
      have hm : m < tl.length := by simpa using h1
      have : 0 < tl.countP p :=
        List.countP_pos_iff.mpr ⟨tl[m], List.getElem_mem hm, hp1⟩
      rw [List.countP_cons, if_pos hp2]
      omega
    | m + 1, k + 1 =>
      rw [List.getElem_cons_succ] at hp1
      rw [List.getElem_cons_succ] at hp2
      have := ih m k (by simpa using h1) (by simpa using h2) (by omega) hp1 hp2
      rw [List.countP_cons]
      omega

theorem countP_le_one_of_unique {α : Type _} (p : α → Bool) :
    ∀ (l : List α),
      (∀ j1 j2 (h1 : j1 < l.length) (h2 : j2 < l.length),
        p l[j1] = true → p l[j2] = true → j1 = j2) →
      l.countP p ≤ 1 := by
  intro l
  induction l with
  | nil => intro _; simp [List.countP_nil]
  | cons a tl ih =>
    intro hu
    by_cases hpa : p a = true
    · have htl : tl.countP p = 0 := by
        by_contra hne
        obtain ⟨x, hx, hpx⟩ := List.countP_pos_iff.mp (Nat.pos_of_ne_zero hne)
        obtain ⟨k, hk, hxk⟩ := List.getElem_of_mem hx
        have h0 : p (a :: tl)[0] = true := by simpa using hpa
        have hklt : k + 1 < (a :: tl).length := by simpa using Nat.succ_lt_succ hk
        have hks : p (a :: tl)[k + 1] = true := by
          rw [List.getElem_cons_succ]
          rw [hxk]; exact hpx
        have := hu 0 (k + 1) (by simp) hklt h0 hks
        omega
      rw [List.countP_cons, htl, if_pos hpa]
    · have := ih (fun j1 j2 h1 h2 hp1 hp2 => by
        have := hu (j1 + 1) (j2 + 1) (by simpa using Nat.succ_lt_succ h1)
          (by simpa using Nat.succ_lt_succ h2)
          (by rw [List.getElem_cons_succ]; exact hp1)
          (by rw [List.getElem_cons_succ]; exact hp2)
        omega)
      rw [List.countP_cons, if_neg hpa]
      omega

/-! ### Modular index arithmetic -/

theorem probe_shift (sz idx m : Nat) :
    ((idx + 1) % sz + m) % sz = (idx + (m + 1)) % sz := by
  rw [Nat.mod_add_mod]
  congr 1
  omega

theorem exists_probe_offset {sz start i : Nat} (h0 : 0 < sz) (hs : start < sz) (hi : i < sz) :
    ∃ j, j < sz ∧ (start + j) % sz = i := by
  refine ⟨(i + sz - start) % sz, Nat.mod_lt _ h0, ?_⟩
  rw [Nat.add_mod_mod]
  have heq : start + (i + sz - start) = i + sz := by omega
  rw [heq, Nat.add_mod_right, Nat.mod_eq_of_lt hi]

/-! ### Probe loop characterization -/

theorem noMatchBelow_zero (t : List (Option (Entry K V))) (sz : Nat) (k : K) (idx : Nat) :
    NoMatchBelow t sz k idx 0 :=
  fun m hm => absurd hm (Nat.not_lt_zero m)

theorem noMatchBelow_step {t : List (Option (Entry K V))} {sz : Nat} {k : K} {idx j : Nat} {e : Entry K V}
    (hidx : idx < sz) (hslot : t.getD idx none = some e) (hnm : e.in_use = true → e.key ≠ k)
    (htail : NoMatchBelow t sz k ((idx + 1) % sz) j) :
    NoMatchBelow t sz k idx (j + 1) := by
  intro m hm
  match m with
  | 0 =>
    refine ⟨e, ?_, hnm⟩
    rwa [Nat.add_zero, Nat.mod_eq_of_lt hidx]
  | m' + 1 =>
    obtain ⟨e', he', hne'⟩ := htail m' (by omega)
    exact ⟨e', by rwa [probe_shift] at he', hne'⟩

theorem probeGo_found_spec {t : List (Option (Entry K V))} {sz : Nat} {k : K} (h0 : 0 < sz) :
    ∀ fuel idx i, idx < sz → probeGo t sz k idx fuel = .found i →
      (∃ e, t.getD i none = some e ∧ e.in_use = true ∧ e.key = k) ∧
      ∃ j, j < fuel ∧ i = (idx + j) % sz ∧ NoMatchBelow t sz k idx j := by
  intro fuel
  induction fuel with
  | zero => intro idx i _ h; exact absurd h (by simp [probeGo])
  | succ n ih =>
    intro idx i hidx h
    cases hslot : t.getD idx none with
    | none =>
      simp only [probeGo, hslot] at h
      exact absurd h (by simp)
    | some e =>
      simp only [probeGo, hslot] at h
      by_cases hm : e.in_use = true ∧ e.key = k
      · rw [if_pos hm] at h
        have hi : idx = i := by
          cases h
          rfl
        subst hi
        refine ⟨⟨e, hslot, hm.1, hm.2⟩, 0, by omega, ?_, noMatchBelow_zero t sz k idx⟩
        rw [Nat.add_zero, Nat.mod_eq_of_lt hidx]
      · rw [if_neg hm] at h
        obtain ⟨hent, j', hj', hij', hnm'⟩ := ih ((idx + 1) % sz) i (Nat.mod_lt _ h0) h
        refine ⟨hent, j' + 1, by omega, ?_, ?_⟩
        · rw [hij', probe_shift]
        · exact noMatchBelow_step hidx hslot (fun hu hk => hm ⟨hu, hk⟩) hnm'

theorem probeGo_empty_spec {t : List (Option (Entry K V))} {sz : Nat} {k : K} (h0 : 0 < sz) :
    ∀ fuel idx i, idx < sz → probeGo t sz k idx fuel = .empty i →
      t.getD i none = none ∧
      ∃ j, j < fuel ∧ i = (idx + j) % sz ∧ NoMatchBelow t sz k idx j := by
  intro fuel
  induction fuel with
  | zero => intro idx i _ h; exact absurd h (by simp [probeGo])
  | succ n ih =>
    intro idx i hidx h
    cases hslot : t.getD idx none with
    | none =>
      simp only [probeGo, hslot] at h
      have hi : idx = i := by
        cases h
        rfl
      subst hi
      refine ⟨hslot, 0, by omega, ?_, noMatchBelow_zero t sz k idx⟩
      rw [Nat.add_zero, Nat.mod_eq_of_lt hidx]
    | some e =>
      simp only [probeGo, hslot] at h
      by_cases hm : e.in_use = true ∧ e.key = k
      · rw [if_pos hm] at h
        exact absurd h (by simp)
      · rw [if_neg hm] at h
        obtain ⟨hget, j', hj', hij', hnm'⟩ := ih ((idx + 1) % sz) i (Nat.mod_lt _ h0) h
        refine ⟨hget, j' + 1, by omega, ?_, ?_⟩
        · rw [hij', probe_shift]
        · exact noMatchBelow_step hidx hslot (fun hu hk => hm ⟨hu, hk⟩) hnm'

theorem probeGo_wrap_spec {t : List (Option (Entry K V))} {sz : Nat} {k : K} (h0 : 0 < sz) :
    ∀ fuel idx, idx < sz → probeGo t sz k idx fuel = .wrap →
      NoMatchBelow t sz k idx fuel := by
  intro fuel
  induction fuel with
  | zero => intro idx _ _; exact noMatchBelow_zero t sz k idx
  | succ n ih =>
    intro idx hidx h
    cases hslot : t.getD idx none with
    | none =>
      simp only [probeGo, hslot] at h
      exact absurd h (by simp)
    | some e =>
      simp only [probeGo, hslot] at h
      by_cases hm : e.in_use = true ∧ e.key = k
      · rw [if_pos hm] at h
        exact absurd h (by simp)
      · rw [if_neg hm] at h
        exact noMatchBelow_step hidx hslot (fun hu hk => hm ⟨hu, hk⟩)
          (ih ((idx + 1) % sz) (Nat.mod_lt _ h0) h)

theorem liveKeyAt_some_iff {st : HT K V} {i : Nat} {k : K} :
    liveKeyAt st i = some k ↔ ∃ e, slotAt st i = some e ∧ e.in_use = true ∧ e.key = k := by
  unfold liveKeyAt
  cases h : slotAt st i with
  | none => simp
  | some e =>
    by_cases hu : e.in_use
    · simp [hu]
    · simp [hu]

theorem liveKeyAt_isSome_iff {st : HT K V} {i : Nat} :
    (liveKeyAt st i).isSome = true ↔ ∃ e, slotAt st i = some e ∧ e.in_use = true := by
  unfold liveKeyAt
  cases h : slotAt st i with
  | none => simp
  | some e =>
    by_cases hu : e.in_use
    · simp [hu]
    · simp [hu]

theorem hashIdx_lt {st : HT K V} {k : K} (h0 : 0 < st.table_size) :
    hashIdx hf st k < st.table_size :=
  Nat.mod_lt _ h0

theorem probe_found_live {st : HT K V} {k : K} {i : Nat} (h0 : 0 < st.table_size)
    (h : probe hf st k = .found i) :
    i < st.table_size ∧ liveKeyAt st i = some k ∧
      ∃ j, j < st.table_size ∧ i = (hashIdx hf st k + j) % st.table_size ∧
        NoMatchBelow st.table st.table_size k (hashIdx hf st k) j := by
  obtain ⟨⟨e, he, hu, hk⟩, j, hj, hij, hnm⟩ :=
    probeGo_found_spec h0 st.table_size (hashIdx hf st k) i (hashIdx_lt hf h0) h
  refine ⟨?_, liveKeyAt_some_iff.mpr ⟨e, he, hu, hk⟩, j, hj, hij, hnm⟩
  rw [hij]
  exact Nat.mod_lt _ h0

theorem probe_empty_slot {st : HT K V} {k : K} {i : Nat} (h0 : 0 < st.table_size)
    (h : probe hf st k = .empty i) :
    slotAt st i = none ∧ i < st.table_size ∧
      ∃ j, j < st.table_size ∧ i = (hashIdx hf st k + j) % st.table_size ∧
        NoMatchBelow st.table st.table_size k (hashIdx hf st k) j := by
  obtain ⟨he, j, hj, hij, hnm⟩ :=
    probeGo_empty_spec h0 st.table_size (hashIdx hf st k) i (hashIdx_lt hf h0) h
  refine ⟨he, ?_, j, hj, hij, hnm⟩
  rw [hij]
  exact Nat.mod_lt _ h0

/-- Completeness of the probe: in a well-formed table, the probe for a
key `k` stored live at slot `i` ends at `i` (it cannot stop at a null
slot first, nor wrap, nor stop at a different live match). -/
theorem probe_complete {st : HT K V} {k : K} {i : Nat} (hWF : WF hf st)
    (hi : i < st.table_size) (hk : liveKeyAt st i = some k) :
    probe hf st k = .found i := by
  obtain ⟨hlen, h0, hcount, huniq, hreach⟩ := hWF
  obtain ⟨e, he, hu, hek⟩ := liveKeyAt_some_iff.mp hk
  have hstart : startOf hf st i = hashIdx hf st k := by
    simp [startOf, hashIdx, he, hek]
  obtain ⟨j, hj, hij, hpath⟩ := hreach i hi (by rw [hk]; rfl)
  rw [hstart] at hij hpath
  cases hres : probe hf st k with
  | found i' =>
    obtain ⟨hi', hk', _⟩ := probe_found_live hf h0 hres
    have := huniq i hi i' hi' (by rw [hk]; rfl) (by rw [hk, hk'])
    rw [← this]
  | empty i' =>
    exfalso
    obtain ⟨he', _, j', hj', hij', hnm'⟩ := probe_empty_slot hf h0 hres
    rcases Nat.lt_trichotomy j' j with hlt | heq | hgt
    · have hx := hpath j' hlt
      rw [← hij'] at hx
      rw [he'] at hx
      simp at hx
    · subst heq
      rw [← hij'] at hij
      subst hij
      rw [he'] at he
      exact Option.noConfusion he
    · obtain ⟨e'', he'', hne''⟩ := hnm' j hgt
      rw [← hij] at he''
      unfold slotAt at he
      rw [he] at he''
      cases he''
      exact hne'' hu hek
  | wrap =>
    exfalso
    have hnm' := probeGo_wrap_spec h0 st.table_size (hashIdx hf st k) (hashIdx_lt hf h0) hres
    obtain ⟨e'', he'', hne''⟩ := hnm' j (by omega)
    rw [← hij] at he''
    unfold slotAt at he
    rw [he] at he''
    cases he''
    exact hne'' hu hek

theorem liveK_iff_exists {st : HT K V} {k : K} : LiveK st k ↔ ∃ v, LiveKV st k v := by
  unfold LiveK LiveKV
  constructor
  · rintro ⟨i, hi, hk⟩
    obtain ⟨e, he, _, _⟩ := liveKeyAt_some_iff.mp hk
    exact ⟨e.value, i, hi, hk, by simp [valAt, he]⟩
  · rintro ⟨v, i, hi, hk, _⟩
    exact ⟨i, hi, hk⟩

theorem liveK_of_probe_found {st : HT K V} {k : K} {i : Nat}
    (hlen : st.table_size = st.table.length) (h0 : 0 < st.table_size)
    (hres : probe hf st k = .found i) : LiveK st k := by
  obtain ⟨hi, hk, _⟩ := probe_found_live hf h0 hres
  exact ⟨i, hlen ▸ hi, hk⟩

theorem not_liveK_of_probe_not_found {st : HT K V} {k : K} (hWF : WF hf st)
    (h : ∀ i, probe hf st k ≠ .found i) : ¬ LiveK st k := by
  rintro ⟨i, hi, hk⟩
  exact h i (probe_complete hf hWF (hWF.1 ▸ hi) hk)

/-- In a well-formed table, `find` returns exactly the value of the
unique live slot holding `k`. -/
theorem findVal_some_iff {st : HT K V} {k : K} {v : V} (hWF : WF hf st)
    (hnull : isNull k = false) :
    findVal hf isNull st k = some v ↔ LiveKV st k v := by
  have hlen := hWF.1
  have h0 := hWF.2.1
  have huniq := hWF.2.2.2.1
  unfold findVal
  simp only [hnull, Bool.false_eq_true, if_false]
  cases hres : probe hf st k with
  | found i =>
    obtain ⟨hi, hk, _⟩ := probe_found_live hf h0 hres
    obtain ⟨e, he, hu, hek⟩ := liveKeyAt_some_iff.mp hk
    unfold slotAt at he
    dsimp only
    rw [he]
    simp only [Option.map_some']
    constructor
    · rintro hv
      cases hv
      refine ⟨i, hlen ▸ hi, hk, ?_⟩
      unfold valAt slotAt
      rw [he]
      rfl
    · rintro ⟨j, hj, hkj, hvj⟩
      have hji : j = i := huniq j (hlen ▸ hj) i hi (by rw [hkj]; rfl) (by rw [hkj, hk])
      subst hji
      unfold valAt slotAt at hvj
      rw [he] at hvj
      simpa using hvj
  | empty i =>
    refine iff_of_false (by simp) ?_
    intro hkv
    have : LiveK st k := liveK_iff_exists.mpr ⟨v, hkv⟩
    obtain ⟨j, hj, hkj⟩ := this
    have := probe_complete hf hWF (hlen ▸ hj) hkj
    rw [hres] at this
    exact ProbeRes.noConfusion this
  | wrap =>
    refine iff_of_false (by simp) ?_
    intro hkv
    have : LiveK st k := liveK_iff_exists.mpr ⟨v, hkv⟩
    obtain ⟨j, hj, hkj⟩ := this
    have := probe_complete hf hWF (hlen ▸ hj) hkj
    rw [hres] at this
    exact ProbeRes.noConfusion this

theorem findVal_none_iff {st : HT K V} {k : K} (hWF : WF hf st)
    (hnull : isNull k = false) :
    findVal hf isNull st k = none ↔ ¬ LiveK st k := by
  constructor
  · intro hn hl
    obtain ⟨v, hkv⟩ := liveK_iff_exists.mp hl
    rw [(findVal_some_iff hf isNull hWF hnull).mpr hkv] at hn
    exact Option.noConfusion hn
  · intro hnl
    cases hfv : findVal hf isNull st k with
    | none => rfl
    | some v =>
      exact absurd (liveK_iff_exists.mpr
        ⟨v, (findVal_some_iff hf isNull hWF hnull).mp hfv⟩) hnl

/-! ### Slot views of the three mutators -/

theorem slotAt_overwriteAt {st : HT K V} {i : Nat} (hi : i < st.table.length) (v : V) (j : Nat) :
    slotAt (overwriteAt st i v) j =
      if j = i then (slotAt st i).map (fun e => { e with value := v }) else slotAt st j := by
  unfold overwriteAt slotAt
  by_cases hj : j = i
  · subst hj
    rw [if_pos rfl, getD_set_self _ _ _ _ hi]
  · rw [if_neg hj, getD_set_ne _ (fun hh => hj hh.symm)]

theorem slotAt_writeAt {st : HT K V} {i : Nat} (hi : i < st.table.length) (k : K) (v : V) (j : Nat) :
    slotAt (writeAt st i k v) j =
      if j = i then some ⟨k, v, true⟩ else slotAt st j := by
  unfold writeAt slotAt
  by_cases hj : j = i
  · subst hj
    rw [if_pos rfl, getD_set_self _ _ _ _ hi]
  · rw [if_neg hj, getD_set_ne _ (fun hh => hj hh.symm)]

theorem slotAt_tombstoneAt {st : HT K V} {i : Nat} (hi : i < st.table.length) (j : Nat) :
    slotAt (tombstoneAt st i) j =
      if j = i then (slotAt st i).map (fun e => { e with in_use := false }) else slotAt st j := by
  unfold tombstoneAt slotAt
  by_cases hj : j = i
  · subst hj
    rw [if_pos rfl, getD_set_self _ _ _ _ hi]
  · rw [if_neg hj, getD_set_ne _ (fun hh => hj hh.symm)]

theorem overwriteAt_table_size (st : HT K V) (i : Nat) (v : V) :
    (overwriteAt st i v).table_size = st.table_size := rfl

theorem overwriteAt_item_count (st : HT K V) (i : Nat) (v : V) :
    (overwriteAt st i v).item_count = st.item_count := rfl

theorem overwriteAt_length (st : HT K V) (i : Nat) (v : V) :
    (overwriteAt st i v).table.length = st.table.length := by
  simp [overwriteAt]

theorem writeAt_table_size (st : HT K V) (i : Nat) (k : K) (v : V) :
    (writeAt st i k v).table_size = st.table_size := rfl

theorem writeAt_item_count (st : HT K V) (i : Nat) (k : K) (v : V) :
    (writeAt st i k v).item_count = st.item_count + 1 := rfl

theorem writeAt_length (st : HT K V) (i : Nat) (k : K) (v : V) :
    (writeAt st i k v).table.length = st.table.length := by
  simp [writeAt]

theorem tombstoneAt_table_size (st : HT K V) (i : Nat) :
    (tombstoneAt st i).table_size = st.table_size := rfl

theorem tombstoneAt_item_count (st : HT K V) (i : Nat) :
    (tombstoneAt st i).item_count = st.item_count - 1 := rfl

theorem tombstoneAt_length (st : HT K V) (i : Nat) :
    (tombstoneAt st i).table.length = st.table.length := by
  simp [tombstoneAt]

/-! ### The free-slot scan of `resize` -/

theorem findFree_free {t : List (Option (Entry K V))} {sz : Nat} :
    ∀ fuel idx i, findFree t sz idx fuel = some i → t.getD i none = none := by
  intro fuel
  induction fuel with
  | zero => intro idx i h; exact absurd h (by simp [findFree])
  | succ n ih =>
    intro idx i h
    simp only [findFree] at h
    by_cases hs : (t.getD idx none).isSome
    · rw [if_pos hs] at h
      exact ih _ _ h
    · rw [if_neg hs] at h
      cases h
      exact Option.not_isSome_iff_eq_none.mp hs

theorem findFree_some_spec {t : List (Option (Entry K V))} {sz : Nat} (h0 : 0 < sz) :
    ∀ fuel idx i, idx < sz → findFree t sz idx fuel = some i →
      ∃ j, j < fuel ∧ i = (idx + j) % sz ∧
        ∀ m, m < j → (t.getD ((idx + m) % sz) none).isSome = true := by
  intro fuel
  induction fuel with
  | zero => intro idx i _ h; exact absurd h (by simp [findFree])
  | succ n ih =>
    intro idx i hidx h
    simp only [findFree] at h
    by_cases hs : (t.getD idx none).isSome
    · rw [if_pos hs] at h
      obtain ⟨j', hj', hij', hpath'⟩ := ih ((idx + 1) % sz) i (Nat.mod_lt _ h0) h
      refine ⟨j' + 1, by omega, ?_, ?_⟩
      · rw [hij', probe_shift]
      · intro m hm
        match m with
        | 0 => rwa [Nat.add_zero, Nat.mod_eq_of_lt hidx]
        | m' + 1 =>
          have := hpath' m' (by omega)
          rwa [probe_shift] at this
    · rw [if_neg hs] at h
      cases h
      refine ⟨0, by omega, ?_, fun m hm => absurd hm (Nat.not_lt_zero m)⟩
      rw [Nat.add_zero, Nat.mod_eq_of_lt hidx]

theorem findFree_none_spec {t : List (Option (Entry K V))} {sz : Nat} (h0 : 0 < sz) :
    ∀ fuel idx, idx < sz → findFree t sz idx fuel = none →
      ∀ m, m < fuel → (t.getD ((idx + m) % sz) none).isSome = true := by
  intro fuel
  induction fuel with
  | zero => intro idx _ _ m hm; omega
  | succ n ih =>
    intro idx hidx h m hm
    simp only [findFree] at h
    by_cases hs : (t.getD idx none).isSome
    · rw [if_pos hs] at h
      match m with
      | 0 => rwa [Nat.add_zero, Nat.mod_eq_of_lt hidx]
      | m' + 1 =>
        have := ih ((idx + 1) % sz) (Nat.mod_lt _ h0) h m' (by omega)
        rwa [probe_shift] at this
    · rw [if_neg hs] at h
      exact absurd h (by simp)

theorem findFree_success {t : List (Option (Entry K V))} {sz : Nat}
    (hlen : t.length = sz) (hocc : t.countP (fun s => s.isSome) < sz) {idx : Nat}
    (hidx : idx < sz) : ∃ i, findFree t sz idx sz = some i := by
  have h0 : 0 < sz := Nat.lt_of_le_of_lt (Nat.zero_le _) hocc
  cases hff : findFree t sz idx sz with
  | some i => exact ⟨i, rfl⟩
  | none =>
    exfalso
    have hall := findFree_none_spec h0 sz idx hidx hff
    have hpos : ∀ pos, pos < sz → (t.getD pos none).isSome = true := by
      intro pos hposlt
      obtain ⟨j, hj, hjeq⟩ := exists_probe_offset h0 hidx hposlt
      have := hall j hj
      rwa [hjeq] at this
    have hfull : t.countP (fun s => s.isSome) = sz := by
      rw [← hlen]
      apply List.countP_eq_length.mpr
      intro a ha
      obtain ⟨pos, hposlt, hpa⟩ := List.getElem_of_mem ha
      have := hpos pos (hlen ▸ hposlt)
      rwa [List.getD_eq_getElem _ _ hposlt, hpa] at this
    omega

/-! ### The rehash fold of `resize` -/

theorem rehashStep_of_not_live (nsz : Nat) (nt : List (Option (Entry K V)))
    {s : Option (Entry K V)} (h : liveP s = false) : rehashStep hf nsz nt s = nt := by
  cases s with
  | none => rfl
  | some e =>
    simp only [liveP] at h
    simp [rehashStep, h]

theorem rehashStep_cases (nsz : Nat) (nt : List (Option (Entry K V)))
    (s : Option (Entry K V)) :
    rehashStep hf nsz nt s = nt ∨
    ∃ e i, s = some e ∧ e.in_use = true ∧ i < nsz ∧ nt.getD i none = none ∧
      findFree nt nsz (hf e.key % nsz) nsz = some i ∧
      rehashStep hf nsz nt s = nt.set i (some e) := by
  cases s with
  | none => exact Or.inl rfl
  | some e =>
    by_cases hu : e.in_use
    · cases hff : findFree nt nsz (hf e.key % nsz) nsz with
      | some i =>
        right
        have h0 : 0 < nsz := by
          by_contra h0
          have hz : nsz = 0 := by omega
          subst hz
          exact absurd hff (by simp [findFree])
        obtain ⟨j, _, hij, _⟩ :=
          findFree_some_spec h0 nsz (hf e.key % nsz) i (Nat.mod_lt _ h0) hff
        refine ⟨e, i, rfl, hu, ?_, findFree_free nsz _ i hff, hff, ?_⟩
        · rw [hij]; exact Nat.mod_lt _ h0
        · simp [rehashStep, hu, hff]
      | none =>
        left
        simp [rehashStep, hu, hff]
    · left
      exact rehashStep_of_not_live hf nsz nt (by simp [liveP]; exact Bool.of_not_eq_true hu)

theorem rehashStep_length (nsz : Nat) (nt : List (Option (Entry K V)))
    (s : Option (Entry K V)) : (rehashStep hf nsz nt s).length = nt.length := by
  rcases rehashStep_cases hf nsz nt s with h | ⟨e, i, _, _, _, _, _, h⟩ <;> rw [h]
  exact List.length_set nt i _

theorem rehash_foldl_length (nsz : Nat) :
    ∀ (l : List (Option (Entry K V))) (nt : List (Option (Entry K V))),
      (l.foldl (rehashStep hf nsz) nt).length = nt.length := by
  intro l
  induction l with
  | nil => intro nt; rfl
  | cons a tl ih =>
    intro nt
    rw [List.foldl_cons, ih (rehashStep hf nsz nt a), rehashStep_length]

theorem rehash_mono (nsz : Nat) :
    ∀ (l : List (Option (Entry K V))) (nt : List (Option (Entry K V))) (j : Nat) (e : Entry K V),
      nt.getD j none = some e → (l.foldl (rehashStep hf nsz) nt).getD j none = some e := by
  intro l
  induction l with
  | nil => intro nt j e h; exact h
  | cons a tl ih =>
    intro nt j e h
    rw [List.foldl_cons]
    apply ih
    rcases rehashStep_cases hf nsz nt a with hs | ⟨e0, i, _, _, _, hfree, _, hs⟩
    · rwa [hs]
    · rw [hs, getD_set_ne]
      · exact h
      · intro hij
        rw [hij, h] at hfree
        exact Option.noConfusion hfree

theorem rehash_origin (nsz : Nat) :
    ∀ (l : List (Option (Entry K V))) (nt : List (Option (Entry K V))) (j : Nat) (e : Entry K V),
      (l.foldl (rehashStep hf nsz) nt).getD j none = some e →
      nt.getD j none = some e ∨ (some e ∈ l ∧ e.in_use = true) := by
  intro l
  induction l with
  | nil => intro nt j e h; exact Or.inl h
  | cons a tl ih =>
    intro nt j e h
    rw [List.foldl_cons] at h
    rcases ih (rehashStep hf nsz nt a) j e h with h1 | ⟨hmem, hu⟩
    · rcases rehashStep_cases hf nsz nt a with hs | ⟨e0, i, ha, hu0, hilt, hfree, _, hs⟩
      · rw [hs] at h1
        exact Or.inl h1
      · rw [hs] at h1
        by_cases hj : j = i
        · subst hj
          by_cases hjl : j < nt.length
          · rw [getD_set_self _ _ _ _ hjl] at h1
            cases h1
            exact Or.inr ⟨ha ▸ List.mem_cons_self a tl, hu0⟩
          · rw [List.set_eq_of_length_le (Nat.le_of_not_lt hjl)] at h1
            exact Or.inl h1
        · rw [getD_set_ne _ (fun hh => hj hh.symm)] at h1
          exact Or.inl h1
    · exact Or.inr ⟨List.mem_cons_of_mem a hmem, hu⟩

/-- Every live entry of the scanned prefix is placed (at an in-range
slot) by the rehash fold, and the number of occupied slots grows by
exactly the number of live entries scanned, provided the new table has
room for all of them. -/
theorem rehash_fold_spec (nsz : Nat) :
    ∀ (l nt : List (Option (Entry K V))), nt.length = nsz →
      nt.countP (fun s => s.isSome) + l.countP liveP ≤ nsz →
      (l.foldl (rehashStep hf nsz) nt).countP (fun s => s.isSome) =
        nt.countP (fun s => s.isSome) + l.countP liveP ∧
      ∀ e, some e ∈ l → e.in_use = true →
        ∃ j, j < nsz ∧ (l.foldl (rehashStep hf nsz) nt).getD j none = some e := by
  intro l
  induction l with
  | nil =>
    intro nt _ _
    refine ⟨by simp, ?_⟩
    intro e he
    simp at he
  | cons a tl ih =>
    intro nt hlen hocc
    rw [List.foldl_cons]
    by_cases hla : liveP a = true
    · obtain ⟨e0, ha, hu0⟩ : ∃ e0, a = some e0 ∧ e0.in_use = true := by
        cases a with
        | none => simp [liveP] at hla
        | some e0 => exact ⟨e0, rfl, hla⟩
      have hcnt_cons : (a :: tl).countP liveP = tl.countP liveP + 1 := by
        rw [List.countP_cons, if_pos hla]
      rw [hcnt_cons] at hocc ⊢
      have h0 : 0 < nsz := by omega
      have hociv : nt.countP (fun s => s.isSome) < nsz := by omega
      have hstart : hf e0.key % nsz < nsz := Nat.mod_lt _ h0
      obtain ⟨i, hff⟩ := findFree_success hlen hociv hstart
      have hfree := findFree_free nsz _ i hff
      have hilt : i < nsz := by
        obtain ⟨j, _, hij, _⟩ := findFree_some_spec h0 nsz _ i hstart hff
        rw [hij]
        exact Nat.mod_lt _ h0
      have hilen : i < nt.length := hlen ▸ hilt
      have hstep : rehashStep hf nsz nt a = nt.set i (some e0) := by
        rw [ha]
        simp [rehashStep, hu0, hff]
      rw [hstep]
      have hocc' : (nt.set i (some e0)).countP (fun s => s.isSome) =
          nt.countP (fun s => s.isSome) + 1 := by
        rw [countP_getD_set _ _ _ _ hilen, hfree]
        simp
      have hlen' : (nt.set i (some e0)).length = nsz := by
        rw [List.length_set]
        exact hlen
      obtain ⟨hcnt_res, hcompl⟩ := ih (nt.set i (some e0)) hlen' (by omega)
      refine ⟨by rw [hcnt_res, hocc']; omega, ?_⟩
      intro e hmem hu
      rcases List.mem_cons.mp hmem with hae | htl
      · rw [ha] at hae
        cases hae
        refine ⟨i, hilt, ?_⟩
        apply rehash_mono
        exact getD_set_self _ _ _ _ hilen
      · exact hcompl e htl hu
    · have hla' : liveP a = false := by simpa using hla
      have hstep := rehashStep_of_not_live hf nsz nt hla'
      rw [hstep]
      have hcnt_cons : (a :: tl).countP liveP = tl.countP liveP := by
        rw [List.countP_cons, if_neg hla]
        omega
      rw [hcnt_cons] at hocc ⊢
      obtain ⟨hcnt_res, hcompl⟩ := ih nt hlen hocc
      refine ⟨hcnt_res, ?_⟩
      intro e hmem hu
      rcases List.mem_cons.mp hmem with hae | htl
      · exfalso
        rw [← hae] at hla'
        simp [liveP] at hla'
        rw [hla'] at hu
        exact Bool.noConfusion hu
      · exact hcompl e htl hu

/-- The rehash fold preserves the placement invariant: every entry of
the accumulator is reachable from its key's hash index by +1 probing
without crossing a null slot. -/
theorem rehash_reach (nsz : Nat) :
    ∀ (l nt : List (Option (Entry K V))), nt.length = nsz →
      (∀ j e, nt.getD j none = some e → ∃ jj, jj < nsz ∧ j = (hf e.key % nsz + jj) % nsz ∧
        ∀ m, m < jj → (nt.getD ((hf e.key % nsz + m) % nsz) none).isSome = true) →
      ∀ j e, (l.foldl (rehashStep hf nsz) nt).getD j none = some e →
        ∃ jj, jj < nsz ∧ j = (hf e.key % nsz + jj) % nsz ∧
          ∀ m, m < jj →
            ((l.foldl (rehashStep hf nsz) nt).getD ((hf e.key % nsz + m) % nsz) none).isSome = true := by
  intro l
  induction l with
  | nil => intro nt _ hinv; exact hinv
  | cons a tl ih =>
    intro nt hlen hinv
    rw [List.foldl_cons]
    apply ih
    · rw [rehashStep_length]
      exact hlen
    · rcases rehashStep_cases hf nsz nt a with hs | ⟨e0, i, ha, hu0, hilt, hfree, hff, hs⟩
      · rwa [hs]
      · rw [hs]
        have hilen : i < nt.length := hlen ▸ hilt
        have h0 : 0 < nsz := by omega
        intro j e hj
        by_cases hji : j = i
        · subst hji
          rw [getD_set_self _ _ _ _ hilen] at hj
          cases hj
          obtain ⟨jj, hjj, hijj, hpath⟩ :=
            findFree_some_spec h0 nsz (hf e0.key % nsz) j (Nat.mod_lt _ h0) hff
          refine ⟨jj, hjj, hijj, ?_⟩
          intro m hm
          have hp := hpath m hm
          have hne : (hf e0.key % nsz + m) % nsz ≠ j := by
            intro hcontra
            rw [hcontra, hfree] at hp
            exact Bool.noConfusion hp
          rw [getD_set_ne _ (fun hh => hne hh.symm)]
          exact hp
        · rw [getD_set_ne _ (fun hh => hji hh.symm)] at hj
          obtain ⟨jj, hjj, hijj, hpath⟩ := hinv j e hj
          refine ⟨jj, hjj, hijj, ?_⟩
          intro m hm
          have hp := hpath m hm
          have hne : (hf e.key % nsz + m) % nsz ≠ i := by
            intro hcontra
            rw [hcontra, hfree] at hp
            exact Bool.noConfusion hp
          rw [getD_set_ne _ (fun hh => hne hh.symm)]
          exact hp

/-- Each scanned slot adds at most one occurrence of any given slot
value to the accumulator. -/
theorem rehash_countP_le (nsz : Nat) (pe : Option (Entry K V) → Bool)
    (hnone : pe none = false) :
    ∀ (l nt : List (Option (Entry K V))), nt.length = nsz →
      (l.foldl (rehashStep hf nsz) nt).countP pe ≤ nt.countP pe + l.countP pe := by
  intro l
  induction l with
  | nil => intro nt _; simp
  | cons a tl ih =>
    intro nt hlen
    rw [List.foldl_cons, List.countP_cons]
    have htl := ih (rehashStep hf nsz nt a) (by rw [rehashStep_length]; exact hlen)
    rcases rehashStep_cases hf nsz nt a with hs | ⟨e0, i, ha, hu0, hilt, hfree, hff, hs⟩
    · rw [hs] at htl ⊢
      have : (0 : Nat) ≤ if pe a = true then 1 else 0 := Nat.zero_le _
      omega
    · rw [hs] at htl ⊢
      have hilen : i < nt.length := hlen ▸ hilt
      have hset : (nt.set i (some e0)).countP pe =
          nt.countP pe + (if pe (some e0) = true then 1 else 0) := by
        rw [countP_getD_set pe nt i _ hilen, hfree, hnone]
        simp
      rw [hset] at htl
      rw [ha]
      omega

/-- Growth drops tombstones: every slot of the rehashed table is either
null or live. -/
theorem rehash_no_tombstone (nsz : Nat) (t : List (Option (Entry K V))) :
    ∀ j e, (rehash hf t nsz).getD j none = some e → e.in_use = true := by
  intro j e h
  unfold rehash at h
  rcases rehash_origin hf nsz t _ j e h with h1 | ⟨_, hu⟩
  · rw [getD_replicate_none] at h1
    exact Option.noConfusion h1
  · exact hu

/-- Entry-level form of the at-most-one-live-slot-per-key invariant. -/
theorem WF_uniqL {st : HT K V} (hWF : WF hf st) :
    ∀ j1 j2 (e1 e2 : Entry K V), j1 < st.table.length → j2 < st.table.length →
      st.table.getD j1 none = some e1 → e1.in_use = true →
      st.table.getD j2 none = some e2 → e2.in_use = true →
      e1.key = e2.key → j1 = j2 := by
  intro j1 j2 e1 e2 h1 h2 hg1 hu1 hg2 hu2 hkey
  have hk1 : liveKeyAt st j1 = some e1.key := liveKeyAt_some_iff.mpr ⟨e1, hg1, hu1, rfl⟩
  have hk2 : liveKeyAt st j2 = some e2.key := liveKeyAt_some_iff.mpr ⟨e2, hg2, hu2, rfl⟩
  exact hWF.2.2.2.1 j1 (hWF.1 ▸ h1) j2 (hWF.1 ▸ h2) (by rw [hk1]; rfl)
    (by rw [hk1, hk2, hkey])

/-- Entry-level form of the reachability invariant. -/
theorem WF_reachL {st : HT K V} (hWF : WF hf st) :
    ∀ j (e : Entry K V), st.table.getD j none = some e → e.in_use = true →
      ∃ jj, jj < st.table_size ∧ j = (hf e.key % st.table_size + jj) % st.table_size ∧
        ∀ m, m < jj →
          (st.table.getD ((hf e.key % st.table_size + m) % st.table_size) none).isSome = true := by
  intro j e hg hu
  have hjl : j < st.table.length := lt_length_of_getD_some hg
  have hks : (liveKeyAt st j).isSome = true := by
    rw [liveKeyAt_some_iff.mpr ⟨e, hg, hu, rfl⟩]
    rfl
  obtain ⟨jj, hjj, hijj, hpath⟩ := hWF.2.2.2.2 j (hWF.1 ▸ hjl) hks
  have hstart : startOf hf st j = hf e.key % st.table_size := by
    unfold startOf slotAt
    rw [hg]
  rw [hstart] at hijj hpath
  exact ⟨jj, hjj, hijj, fun m hm => hpath m hm⟩

/-- The rehashed table holds at most one slot per key. -/
theorem rehash_unique (nsz : Nat) {t : List (Option (Entry K V))}
    (huniq : ∀ j1 j2 (e1 e2 : Entry K V), j1 < t.length → j2 < t.length →
      t.getD j1 none = some e1 → e1.in_use = true →
      t.getD j2 none = some e2 → e2.in_use = true → e1.key = e2.key → j1 = j2) :
    ∀ j1 j2 (e1 e2 : Entry K V), (rehash hf t nsz).getD j1 none = some e1 →
      (rehash hf t nsz).getD j2 none = some e2 → e1.key = e2.key → j1 = j2 := by
  intro j1 j2 e1 e2 h1 h2 hkey
  have hu1 : e1.in_use = true := rehash_no_tombstone hf nsz t j1 e1 h1
  have hu2 : e2.in_use = true := rehash_no_tombstone hf nsz t j2 e2 h2
  have hl1 : j1 < (rehash hf t nsz).length := lt_length_of_getD_some h1
  have hl2 : j2 < (rehash hf t nsz).length := lt_length_of_getD_some h2
  have h1' := h1
  have h2' := h2
  unfold rehash at h1' h2'
  rcases rehash_origin hf nsz t _ j1 e1 h1' with hx | ⟨hm1, _⟩
  · rw [getD_replicate_none] at hx
    exact absurd hx (by simp)
  rcases rehash_origin hf nsz t _ j2 e2 h2' with hx | ⟨hm2, _⟩
  · rw [getD_replicate_none] at hx
    exact absurd hx (by simp)
  obtain ⟨p1, hp1, hpe1⟩ := List.getElem_of_mem hm1
  obtain ⟨p2, hp2, hpe2⟩ := List.getElem_of_mem hm2
  have hg1 : t.getD p1 none = some e1 := by rw [List.getD_eq_getElem _ _ hp1, hpe1]
  have hg2 : t.getD p2 none = some e2 := by rw [List.getD_eq_getElem _ _ hp2, hpe2]
  have hp12 : p1 = p2 := huniq p1 p2 e1 e2 hp1 hp2 hg1 hu1 hg2 hu2 hkey
  have he12 : e1 = e2 := by
    subst hp12
    rw [hg1] at hg2
    exact Option.some.inj hg2
  subst he12
  by_contra hne
  have hpe1' : (fun s => decide (s = some e1)) (rehash hf t nsz)[j1] = true := by
    rw [← List.getD_eq_getElem _ none hl1, h1]
    simp
  have hpe2' : (fun s => decide (s = some e1)) (rehash hf t nsz)[j2] = true := by
    rw [← List.getD_eq_getElem _ none hl2, h2]
    simp
  have h2le : 2 ≤ (rehash hf t nsz).countP (fun s => decide (s = some e1)) :=
    two_le_countP _ (rehash hf t nsz) j1 j2 hl1 hl2 hne hpe1' hpe2'
  have hle : (rehash hf t nsz).countP (fun s => decide (s = some e1)) ≤
      (List.replicate nsz (none : Option (Entry K V))).countP (fun s => decide (s = some e1)) +
        t.countP (fun s => decide (s = some e1)) :=
    rehash_countP_le hf nsz _ (by simp) t _ (List.length_replicate nsz none)
  have hrep : (List.replicate nsz (none : Option (Entry K V))).countP
      (fun s => decide (s = some e1)) = 0 := by
    rw [List.countP_replicate]
    simp
  have ht_le : t.countP (fun s => decide (s = some e1)) ≤ 1 := by
    apply countP_le_one_of_unique
    intro q1 q2 hq1 hq2 hv1 hv2
    have hv1' : t.getD q1 none = some e1 := by
      rw [List.getD_eq_getElem _ _ hq1]
      exact of_decide_eq_true hv1
    have hv2' : t.getD q2 none = some e1 := by
      rw [List.getD_eq_getElem _ _ hq2]
      exact of_decide_eq_true hv2
    exact huniq q1 q2 e1 e1 hq1 hq2 hv1' hu1 hv2' hu1 rfl
  omega

/-! ### The `resize` operation -/

theorem resize_not_grow {st : HT K V} (h : ¬ st.item_count * 2 > st.table_size) :
    resize hf st = st := by
  simp [resize, h]

theorem resize_item_count (st : HT K V) : (resize hf st).item_count = st.item_count := by
  unfold resize
  split <;> rfl

theorem resize_grow_table_size {st : HT K V} (h : st.item_count * 2 > st.table_size) :
    (resize hf st).table_size = st.table_size * 2 := by
  simp [resize, h]

theorem resize_grow_table {st : HT K V} (h : st.item_count * 2 > st.table_size) :
    (resize hf st).table = rehash hf st.table (st.table_size * 2) := by
  simp [resize, h]

theorem resize_grow_length {st : HT K V} (h : st.item_count * 2 > st.table_size) :
    (resize hf st).table.length = st.table_size * 2 := by
  rw [resize_grow_table hf h]
  unfold rehash
  rw [rehash_foldl_length, List.length_replicate]

/-- The occupancy precondition of the rehash fold always holds at a
growth: the live entries of the old table fit into the doubled table. -/
theorem resize_occ (st : HT K V) (hlen : st.table_size = st.table.length) :
    (List.replicate (st.table_size * 2) (none : Option (Entry K V))).countP (fun s => s.isSome) +
      st.table.countP liveP ≤ st.table_size * 2 := by
  have h1 : (List.replicate (st.table_size * 2) (none : Option (Entry K V))).countP
      (fun s => s.isSome) = 0 := by
    rw [List.countP_replicate]
    simp
  have h2 : st.table.countP liveP ≤ st.table.length := List.countP_le_length liveP
  omega

theorem resize_no_tombstone_slots {st : HT K V} (hc : st.item_count * 2 > st.table_size) :
    ∀ i e, slotAt (resize hf st) i = some e → e.in_use = true := by
  intro i e h
  unfold slotAt at h
  rw [resize_grow_table hf hc] at h
  exact rehash_no_tombstone hf _ _ i e h

theorem resize_WF {st : HT K V} (hWF : WF hf st) : WF hf (resize hf st) := by
  by_cases hc : st.item_count * 2 > st.table_size
  · have hlen := hWF.1
    have h0 := hWF.2.1
    have hcount := hWF.2.2.1
    have htbl := resize_grow_table hf hc
    have hts := resize_grow_table_size hf hc
    have hlen' := resize_grow_length hf hc
    have hocc := resize_occ st hlen
    obtain ⟨hcnt_eq, _⟩ := rehash_fold_spec hf (st.table_size * 2) st.table
      (List.replicate (st.table_size * 2) none) (List.length_replicate _ _) hocc
    refine ⟨by rw [hts, hlen'], by rw [hts]; omega, ?_, ?_, ?_⟩
    · -- item_count counts the live slots of the rehashed table
      have hall_live : ∀ a ∈ (resize hf st).table, liveP a = true ↔ a.isSome = true := by
        intro a ha
        cases a with
        | none => simp [liveP]
        | some e =>
          obtain ⟨p, hp, hpa⟩ := List.getElem_of_mem ha
          have hg : (resize hf st).table.getD p none = some e := by
            rw [List.getD_eq_getElem _ _ hp, hpa]
          rw [htbl] at hg
          have := rehash_no_tombstone hf _ _ p e hg
          simp [liveP, this]

      have : liveCount (resize hf st) = liveCountL st.table := by
        unfold liveCount liveCountL
        rw [List.countP_congr hall_live, htbl]
        unfold rehash
        have hrep0 : (List.replicate (st.table_size * 2)
            (none : Option (Entry K V))).countP (fun s => s.isSome) = 0 := by
          rw [List.countP_replicate]
          simp
        rw [hcnt_eq, hrep0]
        omega
      rw [this, resize_item_count]
      rw [hcount]
      rfl
    · -- at most one live slot per key
      intro i1 hi1 i2 hi2 hs1 heq
      obtain ⟨k, hk1⟩ := Option.isSome_iff_exists.mp hs1
      have hk2 : liveKeyAt (resize hf st) i2 = some k := by rw [← heq, hk1]
      obtain ⟨e1, hg1, hu1, hek1⟩ := liveKeyAt_some_iff.mp hk1
      obtain ⟨e2, hg2, hu2, hek2⟩ := liveKeyAt_some_iff.mp hk2
      unfold slotAt at hg1 hg2
      rw [htbl] at hg1 hg2
      exact rehash_unique hf (st.table_size * 2) (WF_uniqL hf hWF) i1 i2 e1 e2 hg1 hg2
        (by rw [hek1, hek2])
    · -- reachability of every live slot
      intro i hi hs
      obtain ⟨e, hg, hu⟩ := liveKeyAt_isSome_iff.mp hs
      have hg' : (resize hf st).table.getD i none = some e := hg
      rw [htbl] at hg'
      have hbase : ∀ j (e' : Entry K V),
          (List.replicate (st.table_size * 2) (none : Option (Entry K V))).getD j none = some e' →
          ∃ jj, jj < st.table_size * 2 ∧
            j = (hf e'.key % (st.table_size * 2) + jj) % (st.table_size * 2) ∧
            ∀ m, m < jj →
              ((List.replicate (st.table_size * 2) (none : Option (Entry K V))).getD
                ((hf e'.key % (st.table_size * 2) + m) % (st.table_size * 2)) none).isSome = true := by
        intro j e' hj
        rw [getD_replicate_none] at hj
        exact absurd hj (by simp)
      obtain ⟨jj, hjj, hijj, hpath⟩ := rehash_reach hf (st.table_size * 2) st.table
        (List.replicate (st.table_size * 2) none) (List.length_replicate _ _) hbase i e hg'
      have hstart : startOf hf (resize hf st) i = hf e.key % (st.table_size * 2) := by
        unfold startOf
        rw [hg, hts]
      refine ⟨jj, by rw [hts]; omega, ?_, ?_⟩
      · rw [hstart, hts]
        exact hijj
      · intro m hm
        have := hpath m hm
        rw [hstart, hts]
        unfold slotAt
        rw [htbl]
        exact this
  · rw [resize_not_grow hf hc]
    exact hWF

theorem resize_liveKV {st : HT K V} (hWF : WF hf st) (k : K) (v : V) :
    LiveKV (resize hf st) k v ↔ LiveKV st k v := by
  by_cases hc : st.item_count * 2 > st.table_size
  · obtain ⟨hlen, h0, hcount, _, _⟩ := hWF
    have htbl := resize_grow_table hf hc
    have hlen' := resize_grow_length hf hc
    obtain ⟨_, hcompl⟩ := rehash_fold_spec hf (st.table_size * 2) st.table
      (List.replicate (st.table_size * 2) none) (List.length_replicate _ _)
      (resize_occ st hlen)
    constructor
    · rintro ⟨j, hj, hk, hv⟩
      obtain ⟨e, hg, hu, hek⟩ := liveKeyAt_some_iff.mp hk
      have hval : e.value = v := by
        unfold valAt at hv
        rw [hg] at hv
        simpa using hv
      unfold slotAt at hg
      rw [htbl] at hg
      rcases rehash_origin hf (st.table_size * 2) st.table _ j e hg with hx | ⟨hmem, _⟩
      · rw [getD_replicate_none] at hx
        exact absurd hx (by simp)
      · obtain ⟨p, hp, hpe⟩ := List.getElem_of_mem hmem
        have hgp : st.table.getD p none = some e := by
          rw [List.getD_eq_getElem _ _ hp, hpe]
        refine ⟨p, hp, liveKeyAt_some_iff.mpr ⟨e, hgp, hu, hek⟩, ?_⟩
        unfold valAt slotAt
        rw [hgp]
        simp [hval]
    · rintro ⟨i, hi, hk, hv⟩
      obtain ⟨e, hg, hu, hek⟩ := liveKeyAt_some_iff.mp hk
      have hval : e.value = v := by
        unfold valAt at hv
        rw [hg] at hv
        simpa using hv
      unfold slotAt at hg
      have hmem : some e ∈ st.table := by
        have hx := List.getElem_mem hi
        rwa [← List.getD_eq_getElem _ none hi, hg] at hx
      obtain ⟨j, hj, hgj⟩ := hcompl e hmem hu
      refine ⟨j, by rw [hlen']; omega, liveKeyAt_some_iff.mpr ⟨e, ?_, hu, hek⟩, ?_⟩
      · unfold slotAt
        rw [htbl]
        exact hgj
      · unfold valAt slotAt
        rw [htbl]
        unfold rehash
        rw [hgj]
        simp [hval]
  · rw [resize_not_grow hf hc]

theorem resize_liveK {st : HT K V} (hWF : WF hf st) (k : K) :
    LiveK (resize hf st) k ↔ LiveK st k := by
  rw [liveK_iff_exists, liveK_iff_exists]
  exact exists_congr fun v => resize_liveKV hf hWF k v

/-- After any call to `resize`, the load-factor trigger is off:
`item_count * 2 ≤ table_size`.  Hence the growth attempt on a wrapped
probe inside `insert` is always a no-op. -/
theorem resize_post_le {st : HT K V} (hWF : WF hf st) :
    (resize hf st).item_count * 2 ≤ (resize hf st).table_size := by
  by_cases hc : st.item_count * 2 > st.table_size
  · rw [resize_item_count, resize_grow_table_size hf hc]
    obtain ⟨hlen, _, hcount, _, _⟩ := hWF
    have : liveCount st ≤ st.table.length := List.countP_le_length liveP
    omega
  · rw [resize_not_grow hf hc]
    omega

/-! ### The three mutation steps -/

/-- Overwriting the value of the live slot the probe found preserves
well-formedness and updates exactly key `k`. -/
theorem overwrite_spec {st : HT K V} {k : K} {i : Nat} {v : V} (hWF : WF hf st)
    (hres : probe hf st k = .found i) :
    WF hf (overwriteAt st i v) ∧
    (∀ k2 v2, LiveKV (overwriteAt st i v) k2 v2 ↔
      ((k2 = k ∧ v2 = v) ∨ (k2 ≠ k ∧ LiveKV st k2 v2))) := by
  have hlen := hWF.1
  have h0 := hWF.2.1
  have hcount := hWF.2.2.1
  have huniq := hWF.2.2.2.1
  have hreach := hWF.2.2.2.2
  obtain ⟨hi, hk, _⟩ := probe_found_live hf h0 hres
  obtain ⟨e, he, hu, hek⟩ := liveKeyAt_some_iff.mp hk
  have hilen : i < st.table.length := hlen ▸ hi
  have hview := slotAt_overwriteAt hilen v
  have hsloti : slotAt (overwriteAt st i v) i = some { e with value := v } := by
    rw [hview i, if_pos rfl, he]
    rfl
  have hkey_eq : ∀ j, liveKeyAt (overwriteAt st i v) j = liveKeyAt st j := by
    intro j
    by_cases hj : j = i
    · subst hj
      unfold liveKeyAt
      rw [hsloti, he]
    · unfold liveKeyAt
      rw [hview j, if_neg hj]
  have hsome_eq : ∀ j, (slotAt (overwriteAt st i v) j).isSome = (slotAt st j).isSome := by
    intro j
    by_cases hj : j = i
    · subst hj
      rw [hsloti, he]
      rfl
    · rw [hview j, if_neg hj]
  have hstart_eq : ∀ j, startOf hf (overwriteAt st i v) j = startOf hf st j := by
    intro j
    by_cases hj : j = i
    · subst hj
      unfold startOf
      rw [hsloti, he]
      rfl
    · unfold startOf
      rw [hview j, if_neg hj]
      rfl
  have hlc : liveCount (overwriteAt st i v) = liveCount st := by
    unfold liveCount liveCountL overwriteAt
    dsimp only
    have hgd : st.table.getD i none = some e := he
    rw [countP_getD_set liveP st.table i _ hilen, hgd]
    have h1 : liveP (some e) = true := by simp [liveP, hu]
    have h2 : liveP ((some e).map fun e => { e with value := v }) = true := by
      simp [liveP, hu]
    rw [h1, h2, show (if (true : Bool) = true then (1 : Nat) else 0) = 1 from rfl]
    have : 0 < st.table.countP liveP := countP_pos_of_getD hgd h1
    omega
  refine ⟨⟨?_, ?_, ?_, ?_, ?_⟩, ?_⟩
  · rw [overwriteAt_table_size, overwriteAt_length]
    exact hlen
  · rw [overwriteAt_table_size]
    exact h0
  · rw [overwriteAt_item_count, hlc]
    exact hcount
  · intro i1 hi1 i2 hi2 hs1 heq
    rw [overwriteAt_table_size] at hi1 hi2
    rw [hkey_eq i1] at hs1 heq
    rw [hkey_eq i2] at heq
    exact huniq i1 hi1 i2 hi2 hs1 heq
  · intro j hj hs
    rw [overwriteAt_table_size] at hj
    rw [hkey_eq j] at hs
    obtain ⟨jj, hjj, hijj, hpath⟩ := hreach j hj hs
    refine ⟨jj, by rw [overwriteAt_table_size]; exact hjj, ?_, ?_⟩
    · rw [hstart_eq, overwriteAt_table_size]
      exact hijj
    · intro m hm
      rw [hstart_eq, overwriteAt_table_size, hsome_eq]
      exact hpath m hm
  · intro k2 v2
    by_cases hk2 : k2 = k
    · subst hk2
      constructor
      · rintro ⟨j, hjl, hkj, hvj⟩
        rw [hkey_eq j] at hkj
        have hji : j = i := huniq j (by rw [overwriteAt_length] at hjl; exact hlen ▸ hjl) i hi
          (by rw [hkj]; rfl) (by rw [hkj, hk])
        subst hji
        unfold valAt at hvj
        rw [hsloti] at hvj
        refine Or.inl ⟨rfl, ?_⟩
        simpa using hvj.symm
      · rintro (⟨_, hv2⟩ | ⟨hne, _⟩)
        · subst hv2
          refine ⟨i, by rw [overwriteAt_length]; exact hilen, ?_, ?_⟩
          · rw [hkey_eq i]
            exact hk
          · unfold valAt
            rw [hsloti]
            rfl
        · exact absurd rfl hne
    · constructor
      · rintro ⟨j, hjl, hkj, hvj⟩
        rw [hkey_eq j] at hkj
        have hji : j ≠ i := by
          intro hji
          subst hji
          rw [hk] at hkj
          exact hk2 (Option.some.inj hkj).symm
        refine Or.inr ⟨hk2, j, by rw [overwriteAt_length] at hjl; exact hjl, hkj, ?_⟩
        unfold valAt at hvj ⊢
        rw [hview j, if_neg hji] at hvj
        exact hvj
      · rintro (⟨hke, _⟩ | ⟨_, j, hjl, hkj, hvj⟩)
        · exact absurd hke hk2
        · have hji : j ≠ i := by
            intro hji
            subst hji
            rw [hk] at hkj
            exact hk2 (Option.some.inj hkj).symm
          refine ⟨j, by rw [overwriteAt_length]; exact hjl, ?_, ?_⟩
          · rw [hkey_eq j]
            exact hkj
          · unfold valAt
            rw [hview j, if_neg hji]
            exact hvj

/-- Writing a fresh key into the null slot the probe found preserves
well-formedness, adds exactly key `k`, and can only happen when no live
slot already holds `k`. -/
theorem write_spec {st : HT K V} {k : K} {i : Nat} {v : V} (hWF : WF hf st)
    (hres : probe hf st k = .empty i) :
    WF hf (writeAt st i k v) ∧
    (∀ k2 v2, LiveKV (writeAt st i k v) k2 v2 ↔
      ((k2 = k ∧ v2 = v) ∨ (k2 ≠ k ∧ LiveKV st k2 v2))) ∧
    ¬ LiveK st k := by
  have hlen := hWF.1
  have h0 := hWF.2.1
  have hcount := hWF.2.2.1
  have huniq := hWF.2.2.2.1
  have hreach := hWF.2.2.2.2
  obtain ⟨hnone_i, hi, j0, hj0, hij0, hnm⟩ := probe_empty_slot hf h0 hres
  have hnotk : ¬ LiveK st k := not_liveK_of_probe_not_found hf hWF
    (fun i' h' => by rw [hres] at h'; exact ProbeRes.noConfusion h')
  have hilen : i < st.table.length := hlen ▸ hi
  have hview := slotAt_writeAt hilen k v
  have hsloti : slotAt (writeAt st i k v) i = some ⟨k, v, true⟩ := by
    rw [hview i, if_pos rfl]
  have hkey : ∀ j, liveKeyAt (writeAt st i k v) j =
      if j = i then some k else liveKeyAt st j := by
    intro j
    by_cases hj : j = i
    · subst hj
      rw [if_pos rfl]
      unfold liveKeyAt
      rw [hsloti]
      rfl
    · rw [if_neg hj]
      unfold liveKeyAt
      rw [hview j, if_neg hj]
  have hmono : ∀ p, (slotAt st p).isSome = true →
      (slotAt (writeAt st i k v) p).isSome = true := by
    intro p hp
    by_cases hpi : p = i
    · subst hpi
      rw [hsloti]
      rfl
    · rw [hview p, if_neg hpi]
      exact hp
  have hgd : st.table.getD i none = none := hnone_i
  have hlc : liveCount (writeAt st i k v) = liveCount st + 1 := by
    unfold liveCount liveCountL writeAt
    dsimp only
    rw [countP_getD_set liveP st.table i _ hilen, hgd,
      show liveP (none : Option (Entry K V)) = false from rfl,
      show liveP (some (⟨k, v, true⟩ : Entry K V)) = true from rfl,
      show (if (false : Bool) = true then (1 : Nat) else 0) = 0 from rfl,
      show (if (true : Bool) = true then (1 : Nat) else 0) = 1 from rfl]
    omega
  refine ⟨⟨?_, ?_, ?_, ?_, ?_⟩, ?_, hnotk⟩
  · rw [writeAt_table_size, writeAt_length]
    exact hlen
  · rw [writeAt_table_size]
    exact h0
  · rw [writeAt_item_count, hlc, hcount]
  · intro i1 hi1 i2 hi2 hs1 heq
    rw [writeAt_table_size] at hi1 hi2
    rw [hkey i1] at hs1 heq
    rw [hkey i2] at heq
    by_cases h1i : i1 = i
    · by_cases h2i : i2 = i
      · rw [h1i, h2i]
      · rw [if_pos h1i, if_neg h2i] at heq
        exact absurd ⟨i2, hlen ▸ hi2, heq.symm⟩ hnotk
    · by_cases h2i : i2 = i
      · rw [if_neg h1i, if_pos h2i] at heq
        exact absurd ⟨i1, hlen ▸ hi1, heq⟩ hnotk
      · rw [if_neg h1i] at hs1 heq
        rw [if_neg h2i] at heq
        exact huniq i1 hi1 i2 hi2 hs1 heq
  · intro j hj hs
    rw [writeAt_table_size] at hj
    rw [hkey j] at hs
    by_cases hji : j = i
    · subst hji
      have hstart' : startOf hf (writeAt st j k v) j = hashIdx hf st k := by
        unfold startOf
        rw [hsloti, writeAt_table_size]
        rfl
      refine ⟨j0, by rw [writeAt_table_size]; exact hj0, ?_, ?_⟩
      · rw [hstart', writeAt_table_size]
        exact hij0
      · intro m hm
        rw [hstart', writeAt_table_size]
        obtain ⟨e', he', _⟩ := hnm m hm
        exact hmono _ (by unfold slotAt; rw [he']; rfl)
    · rw [if_neg hji] at hs
      have hstart' : startOf hf (writeAt st i k v) j = startOf hf st j := by
        unfold startOf
        rw [hview j, if_neg hji]
        rfl
      obtain ⟨jj, hjj, hijj, hpath⟩ := hreach j hj hs
      refine ⟨jj, by rw [writeAt_table_size]; exact hjj, ?_, ?_⟩
      · rw [hstart', writeAt_table_size]
        exact hijj
      · intro m hm
        rw [hstart', writeAt_table_size]
        exact hmono _ (hpath m hm)
  · intro k2 v2
    by_cases hk2 : k2 = k
    · subst hk2
      constructor
      · rintro ⟨j, hjl, hkj, hvj⟩
        rw [hkey j] at hkj
        by_cases hji : j = i
        · subst hji
          unfold valAt at hvj
          rw [hsloti] at hvj
          refine Or.inl ⟨rfl, ?_⟩
          simpa using hvj.symm
        · rw [if_neg hji] at hkj
          rw [writeAt_length] at hjl
          exact absurd ⟨j, hjl, hkj⟩ hnotk
      · rintro (⟨_, hv2⟩ | ⟨hne, _⟩)
        · subst hv2
          refine ⟨i, by rw [writeAt_length]; exact hilen, ?_, ?_⟩
          · rw [hkey i, if_pos rfl]
          · unfold valAt
            rw [hsloti]
            rfl
        · exact absurd rfl hne
    · constructor
      · rintro ⟨j, hjl, hkj, hvj⟩
        rw [hkey j] at hkj
        have hji : j ≠ i := by
          intro hji
          rw [if_pos hji] at hkj
          exact hk2 (Option.some.inj hkj).symm
        rw [if_neg hji] at hkj
        rw [writeAt_length] at hjl
        refine Or.inr ⟨hk2, j, hjl, hkj, ?_⟩
        unfold valAt at hvj ⊢
        rw [hview j, if_neg hji] at hvj
        exact hvj
      · rintro (⟨hke, _⟩ | ⟨_, j, hjl, hkj, hvj⟩)
        · exact absurd hke hk2
        · have hji : j ≠ i := by
            intro hji
            subst hji
            unfold liveKeyAt at hkj
            rw [hnone_i] at hkj
            exact Option.noConfusion hkj
          refine ⟨j, by rw [writeAt_length]; exact hjl, ?_, ?_⟩
          · rw [hkey j, if_neg hji]
            exact hkj
          · unfold valAt
            rw [hview j, if_neg hji]
            exact hvj

/-- Tombstoning the live slot the probe found preserves well-formedness,
removes exactly key `k`, and decrements `item_count` by one (which is
at least one beforehand). -/
theorem remove_found_spec {st : HT K V} {k : K} {i : Nat} (hWF : WF hf st)
    (hres : probe hf st k = .found i) :
    WF hf (tombstoneAt st i) ∧
    (tombstoneAt st i).item_count = st.item_count - 1 ∧
    1 ≤ st.item_count ∧
    ¬ LiveK (tombstoneAt st i) k ∧
    (∀ k2 v2, k2 ≠ k → (LiveKV (tombstoneAt st i) k2 v2 ↔ LiveKV st k2 v2)) := by
  have hlen := hWF.1
  have h0 := hWF.2.1
  have hcount := hWF.2.2.1
  have huniq := hWF.2.2.2.1
  have hreach := hWF.2.2.2.2
  obtain ⟨hi, hk, _⟩ := probe_found_live hf h0 hres
  obtain ⟨e, he, hu, hek⟩ := liveKeyAt_some_iff.mp hk
  have hilen : i < st.table.length := hlen ▸ hi
  have hview := slotAt_tombstoneAt hilen
  have hsloti : slotAt (tombstoneAt st i) i = some { e with in_use := false } := by
    rw [hview i, if_pos rfl, he]
    rfl
  have hkey : ∀ j, liveKeyAt (tombstoneAt st i) j =
      if j = i then none else liveKeyAt st j := by
    intro j
    by_cases hj : j = i
    · subst hj
      rw [if_pos rfl]
      unfold liveKeyAt
      rw [hsloti]
      rfl
    · rw [if_neg hj]
      unfold liveKeyAt
      rw [hview j, if_neg hj]
  have hsome_eq : ∀ j, (slotAt (tombstoneAt st i) j).isSome = (slotAt st j).isSome := by
    intro j
    by_cases hj : j = i
    · subst hj
      rw [hsloti, he]
      rfl
    · rw [hview j, if_neg hj]
  have hstart_eq : ∀ j, startOf hf (tombstoneAt st i) j = startOf hf st j := by
    intro j
    by_cases hj : j = i
    · subst hj
      unfold startOf
      rw [hsloti, he]
      rfl
    · unfold startOf
      rw [hview j, if_neg hj]
      rfl
  have hgd : st.table.getD i none = some e := he
  have h1 : liveP (some e) = true := by simp [liveP, hu]
  have hlcpos : 0 < liveCount st := countP_pos_of_getD hgd h1
  have hlc : liveCount (tombstoneAt st i) = liveCount st - 1 := by
    unfold liveCount liveCountL tombstoneAt
    dsimp only
    rw [countP_getD_set liveP st.table i _ hilen, hgd, h1,
      show liveP ((some e).map fun e => { e with in_use := false }) = false from by
        simp [liveP],
      show (if (true : Bool) = true then (1 : Nat) else 0) = 1 from rfl,
      show (if (false : Bool) = true then (1 : Nat) else 0) = 0 from rfl]
    omega
  have hitem_pos : 1 ≤ st.item_count := by
    rw [hcount]
    exact hlcpos
  refine ⟨⟨?_, ?_, ?_, ?_, ?_⟩, tombstoneAt_item_count st i, hitem_pos, ?_, ?_⟩
  · rw [tombstoneAt_table_size, tombstoneAt_length]
    exact hlen
  · rw [tombstoneAt_table_size]
    exact h0
  · rw [tombstoneAt_item_count, hlc, hcount]
  · intro i1 hi1 i2 hi2 hs1 heq
    rw [tombstoneAt_table_size] at hi1 hi2
    rw [hkey i1] at hs1 heq
    rw [hkey i2] at heq
    by_cases h1i : i1 = i
    · rw [if_pos h1i] at hs1
      exact absurd hs1 (by simp)
    · by_cases h2i : i2 = i
      · rw [if_neg h1i, if_pos h2i] at heq
        rw [if_neg h1i] at hs1
        rw [heq] at hs1
        exact absurd hs1 (by simp)
      · rw [if_neg h1i] at hs1 heq
        rw [if_neg h2i] at heq
        exact huniq i1 hi1 i2 hi2 hs1 heq
  · intro j hj hs
    rw [tombstoneAt_table_size] at hj
    rw [hkey j] at hs
    by_cases hji : j = i
    · rw [if_pos hji] at hs
      exact absurd hs (by simp)
    · rw [if_neg hji] at hs
      obtain ⟨jj, hjj, hijj, hpath⟩ := hreach j hj hs
      refine ⟨jj, by rw [tombstoneAt_table_size]; exact hjj, ?_, ?_⟩
      · rw [hstart_eq, tombstoneAt_table_size]
        exact hijj
      · intro m hm
        rw [hstart_eq, tombstoneAt_table_size, hsome_eq]
        exact hpath m hm
  · rintro ⟨j, hjl, hkj⟩
    rw [hkey j] at hkj
    by_cases hji : j = i
    · rw [if_pos hji] at hkj
      exact Option.noConfusion hkj
    · rw [if_neg hji] at hkj
      rw [tombstoneAt_length] at hjl
      exact hji (huniq j (hlen ▸ hjl) i hi (by rw [hkj]; rfl) (by rw [hkj, hk]))
  · intro k2 v2 hk2
    constructor
    · rintro ⟨j, hjl, hkj, hvj⟩
      rw [hkey j] at hkj
      have hji : j ≠ i := by
        intro hji
        rw [if_pos hji] at hkj
        exact Option.noConfusion hkj
      rw [if_neg hji] at hkj
      rw [tombstoneAt_length] at hjl
      refine ⟨j, hjl, hkj, ?_⟩
      unfold valAt at hvj ⊢
      rw [hview j, if_neg hji] at hvj
      exact hvj
    · rintro ⟨j, hjl, hkj, hvj⟩
      have hji : j ≠ i := by
        intro hji
        subst hji
        rw [hk] at hkj
        exact hk2 (Option.some.inj hkj).symm
      refine ⟨j, by rw [tombstoneAt_length]; exact hjl, ?_, ?_⟩
      · rw [hkey j, if_neg hji]
        exact hkj
      · unfold valAt
        rw [hview j, if_neg hji]
        exact hvj

/-! ### Insert and remove, end to end -/

/-- Master specification of the `insert` body: whenever it terminates it
returns a well-formed table whose live pairs are those of the input
with `k` now bound to `v`; `item_count` grows by one exactly when `k`
was not live before. -/
theorem insertAux_spec {k : K} {v : V} :
    ∀ (fuel : Nat) (st st' : HT K V), WF hf st → insertAux hf fuel st k v = some st' →
      WF hf st' ∧
      (∀ k2 v2, LiveKV st' k2 v2 ↔ ((k2 = k ∧ v2 = v) ∨ (k2 ≠ k ∧ LiveKV st k2 v2))) ∧
      (LiveK st k → st'.item_count = st.item_count) ∧
      (¬ LiveK st k → st'.item_count = st.item_count + 1) := by
  intro fuel
  induction fuel with
  | zero => intro st st' _ h; exact absurd h (by simp [insertAux])
  | succ n ih =>
    intro st st' hWF h
    have hWF1 : WF hf (resize hf st) := resize_WF hf hWF
    have hK1 := resize_liveK hf hWF k
    have hic1 := resize_item_count hf st
    cases hres : probe hf (resize hf st) k with
    | found i =>
      simp only [insertAux, hres, Option.some.injEq] at h
      subst h
      obtain ⟨hWF', hkv'⟩ := overwrite_spec hf hWF1 hres
      have hLk : LiveK st k := hK1.mp (liveK_of_probe_found hf hWF1.1 hWF1.2.1 hres)
      refine ⟨hWF', ?_, ?_, ?_⟩
      · intro k2 v2
        rw [hkv' k2 v2]
        exact or_congr Iff.rfl (and_congr Iff.rfl (resize_liveKV hf hWF k2 v2))
      · intro _
        rw [overwriteAt_item_count, hic1]
      · intro hn
        exact absurd hLk hn
    | empty i =>
      simp only [insertAux, hres, Option.some.injEq] at h
      subst h
      obtain ⟨hWF', hkv', hnotk1⟩ := write_spec hf hWF1 hres
      have hnotk : ¬ LiveK st k := fun hl => hnotk1 (hK1.mpr hl)
      refine ⟨hWF', ?_, ?_, ?_⟩
      · intro k2 v2
        rw [hkv' k2 v2]
        exact or_congr Iff.rfl (and_congr Iff.rfl (resize_liveKV hf hWF k2 v2))
      · intro hLk
        exact absurd hLk hnotk
      · intro _
        rw [writeAt_item_count, hic1]
    | wrap =>
      simp only [insertAux, hres] at h
      have hstop : resize hf (resize hf st) = resize hf st :=
        resize_not_grow hf (by have := resize_post_le hf hWF; omega)
      rw [hstop] at h
      obtain ⟨hWF', hkv', hc1, hc2⟩ := ih (resize hf st) st' hWF1 h
      refine ⟨hWF', ?_, ?_, ?_⟩
      · intro k2 v2
        rw [hkv' k2 v2]
        exact or_congr Iff.rfl (and_congr Iff.rfl (resize_liveKV hf hWF k2 v2))
      · intro hLk
        rw [hc1 (hK1.mpr hLk), hic1]
      · intro hn
        rw [hc2 (fun hx => hn (hK1.mp hx)), hic1]

/-- Specification of `remove`: `true` exactly on a live key; removing a
live key tombstones it, decrements the count and leaves other keys
untouched; removing an absent key changes nothing. -/
theorem remove_spec {st : HT K V} {k : K} (hWF : WF hf st) (hnull : isNull k = false) :
    ((remove hf isNull st k).1 = true ↔ LiveK st k) ∧
    (¬ LiveK st k → remove hf isNull st k = (false, st)) ∧
    (LiveK st k →
      WF hf (remove hf isNull st k).2 ∧
      (remove hf isNull st k).2.item_count = st.item_count - 1 ∧
      1 ≤ st.item_count ∧
      ¬ LiveK (remove hf isNull st k).2 k ∧
      (∀ k2 v2, k2 ≠ k → (LiveKV (remove hf isNull st k).2 k2 v2 ↔ LiveKV st k2 v2)) ∧
      (remove hf isNull st k).1 = true) := by
  cases hres : probe hf st k with
  | found i =>
    have hrm : remove hf isNull st k = (true, tombstoneAt st i) := by
      simp [remove, hnull, hres]
    obtain ⟨hWF', hitem, hpos, hnot, hpres⟩ := remove_found_spec hf hWF hres
    have hLk : LiveK st k := liveK_of_probe_found hf hWF.1 hWF.2.1 hres
    rw [hrm]
    exact ⟨by simp [hLk], fun hn => absurd hLk hn,
      fun _ => ⟨hWF', hitem, hpos, hnot, hpres, rfl⟩⟩
  | empty i =>
    have hrm : remove hf isNull st k = (false, st) := by
      simp [remove, hnull, hres]
    have hnot : ¬ LiveK st k := not_liveK_of_probe_not_found hf hWF
      (fun i' h' => by rw [hres] at h'; exact ProbeRes.noConfusion h')
    rw [hrm]
    exact ⟨iff_of_false (by simp) hnot, fun _ => rfl, fun hl => absurd hl hnot⟩
  | wrap =>
    have hrm : remove hf isNull st k = (false, st) := by
      simp [remove, hnull, hres]
    have hnot : ¬ LiveK st k := not_liveK_of_probe_not_found hf hWF
      (fun i' h' => by rw [hres] at h'; exact ProbeRes.noConfusion h')
    rw [hrm]
    exact ⟨iff_of_false (by simp) hnot, fun _ => rfl, fun hl => absurd hl hnot⟩

/-- A successful `insert` returning `true` means the key passed
`check_key` and the locked body produced the post state. -/
theorem insert_some_true {fuel : Nat} {st st' : HT K V} {k : K} {v : V}
    (h : insert hf isNull fuel st k v = some (true, st')) :
    isNull k = false ∧ insertAux hf fuel st k v = some st' := by
  unfold insert at h
  by_cases hn : isNull k = true
  · rw [if_pos hn] at h
    simp at h
  · rw [if_neg hn] at h
    refine ⟨Bool.of_not_eq_true hn, ?_⟩
    cases haux : insertAux hf fuel st k v with
    | none =>
      rw [haux] at h
      simp at h
    | some s =>
      rw [haux] at h
      simp only [Option.map_some', Option.some.injEq, Prod.mk.injEq] at h
      rw [h.2]

/-- The probe can only answer `found`/`empty` on a positive capacity
(with capacity `0` its fuel is exhausted immediately). -/
theorem probe_pos {st : HT K V} {k : K} {r : ProbeRes} (h : probe hf st k = r)
    (hr : r ≠ .wrap) : 0 < st.table_size := by
  cases hsz : st.table_size with
  | zero =>
    unfold probe at h
    rw [hsz] at h
    simp only [probeGo] at h
    rw [← h] at hr
    exact absurd rfl hr
  | succ n => omega

/-- Without growth, a terminating `insert` leaves every tombstone
exactly in place: the new key is written only into a null slot (or a
live matching slot is overwritten). -/
theorem insert_nogrow_tombstones {st : HT K V} {k : K} {v : V} (hWF : WF hf st)
    (hng : ¬ st.item_count * 2 > st.table_size) :
    ∀ fuel st', insertAux hf fuel st k v = some st' →
      ∀ i e, slotAt st i = some e → e.in_use = false → slotAt st' i = some e := by
  have hrs : resize hf st = st := resize_not_grow hf hng
  intro fuel
  induction fuel with
  | zero => intro st' h; exact absurd h (by simp [insertAux])
  | succ n ih =>
    intro st' h i e hi hu
    cases hres : probe hf st k with
    | found i0 =>
      simp only [insertAux, hrs, hres, Option.some.injEq] at h
      subst h
      obtain ⟨hi0, hk0, _⟩ := probe_found_live hf (probe_pos hf hres (by simp)) hres
      obtain ⟨e0, he0, hu0, _⟩ := liveKeyAt_some_iff.mp hk0
      have hi0len : i0 < st.table.length := lt_length_of_getD_some he0
      have hne : i ≠ i0 := by
        intro hii
        rw [hii, he0] at hi
        cases hi
        rw [hu0] at hu
        exact Bool.noConfusion hu
      rw [slotAt_overwriteAt hi0len v i, if_neg hne]
      exact hi
    | empty i0 =>
      simp only [insertAux, hrs, hres, Option.some.injEq] at h
      subst h
      obtain ⟨hnone0, hi0, _⟩ := probe_empty_slot hf (probe_pos hf hres (by simp)) hres
      have hi0len : i0 < st.table.length := hWF.1 ▸ hi0
      have hne : i ≠ i0 := by
        intro hii
        rw [hii, hnone0] at hi
        exact Option.noConfusion hi
      rw [slotAt_writeAt hi0len k v i, if_neg hne]
      exact hi
    | wrap =>
      simp only [insertAux, hrs, hres] at h
      exact ih st' h i e hi hu

/-- On the table reached by
`insert(0,10); insert(1,11); remove(0); insert(2,12); remove(1);
insert(3,13)` from `CustomHashTable(4)`, every slot is occupied (two
live, two tombstones) but `item_count * 2 ≤ table_size`, so the forced
growth after the wrapped probe is a no-op and the recursive retry of
`insert(4, …)` repeats forever: the model returns `none` at every
recursion depth. -/
theorem c2_insert_diverges : ∀ fuel, insertAux hfId fuel stC2 4 20 = none := by
  intro fuel
  induction fuel with
  | zero => rfl
  | succ n ih =>
    have h1 : resize hfId stC2 = stC2 := by decide
    have h2 : probe hfId stC2 4 = ProbeRes.wrap := by decide
    simp only [insertAux, h1, h2]
    exact ih

/-! ### The claims -/

/-- C1: for every valid key `K` and value `V`, after `insert(K, V)`
succeeds, `find(K)` returns `V`, and this persists across a later
`insert` of a different key (with any growth it triggers) and across a
later `remove` of a different key — i.e. until a `remove(K)` or an
overwriting insert of `K`. -/
theorem c1_insert_find_persistence (st : HT K V) (k k' : K) (v v' : V)
    (fuel fuel' : Nat) (hWF : WF hf st) (hnull : isNull k = false) :
    (∀ st1, insert hf isNull fuel st k v = some (true, st1) →
      findVal hf isNull st1 k = some v) ∧
    (∀ st1, findVal hf isNull st k = some v → k' ≠ k →
      insert hf isNull fuel' st k' v' = some (true, st1) →
      findVal hf isNull st1 k = some v) ∧
    (findVal hf isNull st k = some v → k' ≠ k →
      findVal hf isNull (remove hf isNull st k').2 k = some v) := by
  refine ⟨?_, ?_, ?_⟩
  · intro st1 h
    obtain ⟨hn, haux⟩ := insert_some_true hf isNull h
    obtain ⟨hWF', hkv, -, -⟩ := insertAux_spec hf fuel st st1 hWF haux
    exact (findVal_some_iff hf isNull hWF' hnull).mpr ((hkv k v).mpr (Or.inl ⟨rfl, rfl⟩))
  · intro st1 hfind hne h
    obtain ⟨hn', haux⟩ := insert_some_true hf isNull h
    obtain ⟨hWF', hkv, -, -⟩ := insertAux_spec hf fuel' st st1 hWF haux
    have hkv0 : LiveKV st k v := (findVal_some_iff hf isNull hWF hnull).mp hfind
    exact (findVal_some_iff hf isNull hWF' hnull).mpr
      ((hkv k v).mpr (Or.inr ⟨Ne.symm hne, hkv0⟩))
  · intro hfind hne
    by_cases hn' : isNull k' = true
    · have hrm : remove hf isNull st k' = (false, st) := by
        simp [remove, hn']
      rw [hrm]
      exact hfind
    · have hnull' := Bool.of_not_eq_true hn'
      obtain ⟨-, hno, hyes⟩ := remove_spec hf isNull hWF hnull'
      by_cases hLk' : LiveK st k'
      · obtain ⟨hWF', -, -, -, hpres, -⟩ := hyes hLk'
        have hkv0 : LiveKV st k v := (findVal_some_iff hf isNull hWF hnull).mp hfind
        exact (findVal_some_iff hf isNull hWF' hnull).mpr
          ((hpres k v (Ne.symm hne)).mpr hkv0)
      · rw [hno hLk']
        exact hfind

theorem c1_witness :
    WF hfId stW ∧ noNull (1 : Nat) = false ∧
    ((∀ st1, insert hfId noNull 2 stW 1 5 = some (true, st1) →
        findVal hfId noNull st1 1 = some 5) ∧
      (∀ st1, findVal hfId noNull stW 1 = some 5 → (2 : Nat) ≠ 1 →
        insert hfId noNull 2 stW 2 7 = some (true, st1) →
        findVal hfId noNull st1 1 = some 5) ∧
      (findVal hfId noNull stW 1 = some 5 → (2 : Nat) ≠ 1 →
        findVal hfId noNull (remove hfId noNull stW 2).2 1 = some 5)) :=
  ⟨by decide, rfl,
    c1_insert_find_persistence hfId noNull stW 1 2 5 7 2 2 (by decide) rfl⟩

/-- C2: the claim states that `insert` always terminates and returns
`true` for a valid key on every reachable state, retrying at most once
after a forced growth pass.  The code violates this: on the reachable
state `stC2` (capacity 4, two live slots, two tombstones, no null slot,
`item_count = 2`), the probe for the fresh key 4 wraps, but the forced
`resize()` is a no-op because `item_count * 2 > table_size` fails, so
the recursive `return insert(key, value)` repeats on an unchanged
table forever.  In the model, `insert` returns `none` (non-termination)
at every recursion depth. -/
theorem c2_full_table_insert_never_terminates :
    c2Chain = some stC2 ∧ WF hfId stC2 ∧
    (∀ fuel, insert hfId noNull fuel stC2 4 20 = none) := by
  refine ⟨by decide, by decide, ?_⟩
  intro fuel
  unfold insert
  rw [if_neg (by decide), c2_insert_diverges fuel]
  rfl

/-- C10: `find` and `size` never modify the map: both return the input
state unchanged (the C++ methods are `const` and their bodies contain
no writes to `table`, `table_size` or `item_count`), and repeated calls
with no intervening mutation return equal results. -/
theorem c10_find_size_pure (st : HT K V) (k : K) :
    (find hf isNull st k).2 = st ∧
    (size st).2 = st ∧
    (size st).1 = st.item_count ∧
    (find hf isNull (find hf isNull st k).2 k).1 = (find hf isNull st k).1 ∧
    (size (find hf isNull st k).2).1 = (size st).1 :=
  ⟨rfl, rfl, rfl, rfl, rfl⟩

/-- C3: growth happens exactly when `item_count * 2 > table_size` (the
check `resize()` makes, and `insert` invokes `resize()` first, before
computing the probe start — see the definition of `insertAux`, whose
probe runs on `resize hf st`); growth doubles the capacity, re-inserts
exactly the live pairs (rehashed by fresh linear probing, which is the
reachability part of `WF`), drops every tombstoned and null slot, and
leaves `item_count` unchanged. -/
theorem c3_growth_spec (st : HT K V) (hWF : WF hf st) :
    (resize hf st ≠ st ↔ st.item_count * 2 > st.table_size) ∧
    (¬ st.item_count * 2 > st.table_size → resize hf st = st) ∧
    (st.item_count * 2 > st.table_size →
      (resize hf st).table_size = st.table_size * 2 ∧
      (∀ i e, slotAt (resize hf st) i = some e → e.in_use = true)) ∧
    (∀ k v, LiveKV (resize hf st) k v ↔ LiveKV st k v) ∧
    (resize hf st).item_count = st.item_count ∧
    WF hf (resize hf st) := by
  refine ⟨⟨?_, ?_⟩, resize_not_grow hf, ?_, ?_, resize_item_count hf st, resize_WF hf hWF⟩
  · intro hne
    by_contra hcond
    exact hne (resize_not_grow hf hcond)
  · intro hcond heq
    have h2 := resize_grow_table_size hf hcond
    rw [heq] at h2
    have h0 := hWF.2.1
    omega
  · intro hcond
    exact ⟨resize_grow_table_size hf hcond, resize_no_tombstone_slots hf hcond⟩
  · intro k v
    exact resize_liveKV hf hWF k v

theorem c3_witness :
    WF hfId stG ∧
    ((resize hfId stG ≠ stG ↔ stG.item_count * 2 > stG.table_size) ∧
      (¬ stG.item_count * 2 > stG.table_size → resize hfId stG = stG) ∧
      (stG.item_count * 2 > stG.table_size →
        (resize hfId stG).table_size = stG.table_size * 2 ∧
        (∀ i e, slotAt (resize hfId stG) i = some e → e.in_use = true)) ∧
      (∀ k v, LiveKV (resize hfId stG) k v ↔ LiveKV stG k v) ∧
      (resize hfId stG).item_count = stG.item_count ∧
      WF hfId (resize hfId stG)) :=
  ⟨by decide, c3_growth_spec hfId stG (by decide)⟩

/-- C4: `remove(K)` returns `true` iff a live slot holds `K`; on `true`
it tombstones exactly that slot (flips the liveness flag via
`tombstoneAt`) and decrements `item_count`, after which `find(K)` is
not-found and stays not-found across later inserts and removes of other
keys; on `false` the entire state, `item_count` included, is unchanged. -/
theorem c4_remove_spec (st : HT K V) (k k' : K) (v' : V) (fuel : Nat)
    (hWF : WF hf st) (hnull : isNull k = false) :
    ((remove hf isNull st k).1 = true ↔ LiveK st k) ∧
    (¬ LiveK st k → remove hf isNull st k = (false, st)) ∧
    (LiveK st k →
      (∃ i, liveKeyAt st i = some k ∧ remove hf isNull st k = (true, tombstoneAt st i)) ∧
      (remove hf isNull st k).2.item_count = st.item_count - 1 ∧
      1 ≤ st.item_count ∧
      findVal hf isNull (remove hf isNull st k).2 k = none ∧
      WF hf (remove hf isNull st k).2) ∧
    (findVal hf isNull st k = none → k' ≠ k →
      (∀ st1, insert hf isNull fuel st k' v' = some (true, st1) →
        findVal hf isNull st1 k = none) ∧
      findVal hf isNull (remove hf isNull st k').2 k = none) := by
  obtain ⟨hiff, hno, hyes⟩ := remove_spec hf isNull hWF hnull
  refine ⟨hiff, hno, ?_, ?_⟩
  · intro hLk
    obtain ⟨hWF', hitem, hpos, hnot, -, -⟩ := hyes hLk
    refine ⟨?_, hitem, hpos, ?_, hWF'⟩
    · obtain ⟨i, hi, hki⟩ := hLk
      have hres : probe hf st k = .found i := probe_complete hf hWF (hWF.1 ▸ hi) hki
      exact ⟨i, hki, by simp [remove, hnull, hres]⟩
    · exact (findVal_none_iff hf isNull hWF' hnull).mpr hnot
  · intro hfind hne
    have hnotk : ¬ LiveK st k := (findVal_none_iff hf isNull hWF hnull).mp hfind
    constructor
    · intro st1 h
      obtain ⟨hn', haux⟩ := insert_some_true hf isNull h
      obtain ⟨hWF', hkv, -, -⟩ := insertAux_spec hf fuel st st1 hWF haux
      refine (findVal_none_iff hf isNull hWF' hnull).mpr ?_
      intro hl1
      obtain ⟨v2, hkv2⟩ := liveK_iff_exists.mp hl1
      rcases (hkv k v2).mp hkv2 with ⟨hkk', -⟩ | ⟨-, hkv0⟩
      · exact hne hkk'.symm
      · exact hnotk (liveK_iff_exists.mpr ⟨v2, hkv0⟩)
    · by_cases hn' : isNull k' = true
      · have hrm : remove hf isNull st k' = (false, st) := by
          simp [remove, hn']
        rw [hrm]
        exact hfind
      · have hnull' := Bool.of_not_eq_true hn'
        obtain ⟨-, hno', hyes'⟩ := remove_spec hf isNull hWF hnull'
        by_cases hLk' : LiveK st k'
        · obtain ⟨hWF', -, -, -, hpres, -⟩ := hyes' hLk'
          refine (findVal_none_iff hf isNull hWF' hnull).mpr ?_
          intro hl1
          obtain ⟨v2, hkv2⟩ := liveK_iff_exists.mp hl1
          exact hnotk (liveK_iff_exists.mpr ⟨v2, (hpres k v2 (Ne.symm hne)).mp hkv2⟩)
        · rw [hno' hLk']
          exact hfind

theorem c4_witness :
    WF hfId stW ∧ noNull (1 : Nat) = false ∧
    (((remove hfId noNull stW 1).1 = true ↔ LiveK stW 1) ∧
      (¬ LiveK stW 1 → remove hfId noNull stW 1 = (false, stW)) ∧
      (LiveK stW 1 →
        (∃ i, liveKeyAt stW i = some 1 ∧
          remove hfId noNull stW 1 = (true, tombstoneAt stW i)) ∧
        (remove hfId noNull stW 1).2.item_count = stW.item_count - 1 ∧
        1 ≤ stW.item_count ∧
        findVal hfId noNull (remove hfId noNull stW 1).2 1 = none ∧
        WF hfId (remove hfId noNull stW 1).2) ∧
      (findVal hfId noNull stW 1 = none → (2 : Nat) ≠ 1 →
        (∀ st1, insert hfId noNull 2 stW 2 7 = some (true, st1) →
          findVal hfId noNull st1 1 = none) ∧
        findVal hfId noNull (remove hfId noNull stW 2).2 1 = none)) :=
  ⟨by decide, rfl, c4_remove_spec hfId noNull stW 1 2 7 2 (by decide) rfl⟩

/-- C5: inserting a key that already has a live slot overwrites that
slot's value in place: `item_count` and the number of live slots are
unchanged, `find` returns the new value, at most one live slot holds
any key afterwards, and — when no growth intervenes — the post state is
literally `overwriteAt` of the probe-found slot, all other slots
untouched. -/
theorem c5_overwrite_in_place (st : HT K V) (k : K) (v : V) (fuel : Nat)
    (hWF : WF hf st) (hnull : isNull k = false) (hlive : LiveK st k) :
    ∀ st1, insert hf isNull fuel st k v = some (true, st1) →
      st1.item_count = st.item_count ∧
      liveCount st1 = liveCount st ∧
      findVal hf isNull st1 k = some v ∧
      (∀ i1, i1 < st1.table_size → ∀ i2, i2 < st1.table_size →
        (liveKeyAt st1 i1).isSome = true → liveKeyAt st1 i1 = liveKeyAt st1 i2 → i1 = i2) ∧
      (¬ st.item_count * 2 > st.table_size →
        ∃ i, liveKeyAt st i = some k ∧ st1 = overwriteAt st i v) := by
  intro st1 h
  obtain ⟨hn, haux⟩ := insert_some_true hf isNull h
  obtain ⟨hWF', hkv, hsame, -⟩ := insertAux_spec hf fuel st st1 hWF haux
  have hitem : st1.item_count = st.item_count := hsame hlive
  refine ⟨hitem, ?_, ?_, hWF'.2.2.2.1, ?_⟩
  · rw [← hWF'.2.2.1, ← hWF.2.2.1, hitem]
  · exact (findVal_some_iff hf isNull hWF' hnull).mpr ((hkv k v).mpr (Or.inl ⟨rfl, rfl⟩))
  · intro hng
    have hrs : resize hf st = st := resize_not_grow hf hng
    obtain ⟨i, hi, hki⟩ := hlive
    have hres : probe hf st k = .found i := probe_complete hf hWF (hWF.1 ▸ hi) hki
    refine ⟨i, hki, ?_⟩
    cases fuel with
    | zero => exact absurd haux (by simp [insertAux])
    | succ n =>
      simp only [insertAux, hrs, hres, Option.some.injEq] at haux
      exact haux.symm

theorem c5_witness :
    WF hfId stW ∧ noNull (1 : Nat) = false ∧ LiveK stW 1 ∧
    (∀ st1, insert hfId noNull 2 stW 1 9 = some (true, st1) →
      st1.item_count = stW.item_count ∧
      liveCount st1 = liveCount stW ∧
      findVal hfId noNull st1 1 = some 9 ∧
      (∀ i1, i1 < st1.table_size → ∀ i2, i2 < st1.table_size →
        (liveKeyAt st1 i1).isSome = true → liveKeyAt st1 i1 = liveKeyAt st1 i2 → i1 = i2) ∧
      (¬ stW.item_count * 2 > stW.table_size →
        ∃ i, liveKeyAt stW i = some 1 ∧ st1 = overwriteAt stW i 9)) :=
  ⟨by decide, rfl, by decide,
    c5_overwrite_in_place hfId noNull stW 1 9 2 (by decide) rfl (by decide)⟩

/-- C6: for a pointer-typed key equal to the null representation
(`check_key` fails), `insert` returns `false`, `find` reports
not-found, and `remove` returns `false`, each leaving the state
untouched; all three surface the result as an ordinary return value of
a total function — no exception crosses the API boundary. -/
theorem c6_null_key_rejected (st : HT K V) (k : K) (v : V) (fuel : Nat)
    (hnull : isNull k = true) :
    insert hf isNull fuel st k v = some (false, st) ∧
    find hf isNull st k = (none, st) ∧
    remove hf isNull st k = (false, st) := by
  refine ⟨?_, ?_, ?_⟩
  · unfold insert
    rw [if_pos hnull]
  · unfold find findVal
    rw [if_pos hnull]
  · unfold remove
    rw [if_pos hnull]

theorem c6_witness :
    (fun n : Nat => n == 0) 0 = true ∧
    (insert hfId (fun n : Nat => n == 0) 3 stW 0 9 = some (false, stW) ∧
      find hfId (fun n : Nat => n == 0) stW 0 = (none, stW) ∧
      remove hfId (fun n : Nat => n == 0) stW 0 = (false, stW)) :=
  ⟨rfl, c6_null_key_rejected hfId (fun n : Nat => n == 0) stW 0 9 3 rfl⟩

/-- C7: tombstones are permanent in place — the probe never answers a
tombstoned slot (`empty` only at a truly null slot, `found` only at a
live match), a no-growth `insert` leaves every tombstone untouched
(never reusing its storage for a fresh key), `remove` leaves every
other tombstone untouched, and only a growth rebuild reclaims them
(the rebuilt table has no tombstoned slot at all). -/
theorem c7_tombstone_discipline (st : HT K V) (k : K) (v : V) (fuel : Nat)
    (hWF : WF hf st) :
    (∀ i, probe hf st k = .empty i → slotAt st i = none) ∧
    (∀ i, probe hf st k = .found i →
      ∃ e, slotAt st i = some e ∧ e.in_use = true ∧ e.key = k) ∧
    (¬ st.item_count * 2 > st.table_size →
      ∀ st', insertAux hf fuel st k v = some st' →
        ∀ i e, slotAt st i = some e → e.in_use = false → slotAt st' i = some e) ∧
    (∀ i e, slotAt st i = some e → e.in_use = false →
      slotAt (remove hf isNull st k).2 i = some e) ∧
    (st.item_count * 2 > st.table_size →
      ∀ i e, slotAt (resize hf st) i = some e → e.in_use = true) := by
  have h0 := hWF.2.1
  refine ⟨?_, ?_, ?_, ?_, fun hc => resize_no_tombstone_slots hf hc⟩
  · intro i h
    exact (probe_empty_slot hf h0 h).1
  · intro i h
    obtain ⟨-, hk, -⟩ := probe_found_live hf h0 h
    exact liveKeyAt_some_iff.mp hk
  · intro hng st' haux
    exact insert_nogrow_tombstones hf hWF hng fuel st' haux
  · intro i e hi hu
    by_cases hn : isNull k = true
    · have hrm : remove hf isNull st k = (false, st) := by
        simp [remove, hn]
      rw [hrm]
      exact hi
    · have hnull' := Bool.of_not_eq_true hn
      cases hres : probe hf st k with
      | found i0 =>
        have hrm : remove hf isNull st k = (true, tombstoneAt st i0) := by
          simp [remove, hnull', hres]
        rw [hrm]
        obtain ⟨-, hk0, -⟩ := probe_found_live hf h0 hres
        obtain ⟨e0, he0, hu0, -⟩ := liveKeyAt_some_iff.mp hk0
        have hi0len : i0 < st.table.length := lt_length_of_getD_some he0
        have hne : i ≠ i0 := by
          intro hii
          rw [hii, he0] at hi
          cases hi
          rw [hu0] at hu
          exact Bool.noConfusion hu
        rw [slotAt_tombstoneAt hi0len i, if_neg hne]
        exact hi
      | empty i0 =>
        have hrm : remove hf isNull st k = (false, st) := by
          simp [remove, hnull', hres]
        rw [hrm]
        exact hi
      | wrap =>
        have hrm : remove hf isNull st k = (false, st) := by
          simp [remove, hnull', hres]
        rw [hrm]
        exact hi

theorem c7_witness :
    WF hfId stT ∧
    ((∀ i, probe hfId stT 4 = .empty i → slotAt stT i = none) ∧
      (∀ i, probe hfId stT 4 = .found i →
        ∃ e, slotAt stT i = some e ∧ e.in_use = true ∧ e.key = 4) ∧
      (¬ stT.item_count * 2 > stT.table_size →
        ∀ st', insertAux hfId 2 stT 4 9 = some st' →
          ∀ i e, slotAt stT i = some e → e.in_use = false → slotAt st' i = some e) ∧
      (∀ i e, slotAt stT i = some e → e.in_use = false →
        slotAt (remove hfId noNull stT 4).2 i = some e) ∧
      (stT.item_count * 2 > stT.table_size →
        ∀ i e, slotAt (resize hfId stT) i = some e → e.in_use = true)) :=
  ⟨by decide, c7_tombstone_discipline hfId noNull stT 4 9 2 (by decide)⟩

/-- C8: every operation preserves the data-model invariants: starting
from a well-formed state (`count ≤ capacity` holds there, with `count`
equal to the number of live slots), the states produced by `insert`
(whatever it returns), `remove`, `find` and growth are again
well-formed — `WF` bundles `table_size = length`, positivity,
`item_count = live count`, key uniqueness and the open-addressing
reachability of every live slot from its hash index. -/
theorem c8_invariants_preserved (st : HT K V) (k : K) (v : V) (fuel : Nat)
    (hWF : WF hf st) :
    st.item_count ≤ st.table_size ∧
    st.item_count = liveCount st ∧
    (∀ b st', insert hf isNull fuel st k v = some (b, st') → WF hf st') ∧
    WF hf (remove hf isNull st k).2 ∧
    WF hf (find hf isNull st k).2 ∧
    WF hf (resize hf st) := by
  have hlen := hWF.1
  have hcount := hWF.2.2.1
  refine ⟨?_, hcount, ?_, ?_, hWF, resize_WF hf hWF⟩
  · have : liveCount st ≤ st.table.length := List.countP_le_length liveP
    omega
  · intro b st' h
    unfold insert at h
    by_cases hn : isNull k = true
    · rw [if_pos hn] at h
      simp only [Option.some.injEq, Prod.mk.injEq] at h
      rw [← h.2]
      exact hWF
    · rw [if_neg hn] at h
      cases haux : insertAux hf fuel st k v with
      | none =>
        rw [haux] at h
        simp at h
      | some s =>
        rw [haux] at h
        simp only [Option.map_some', Option.some.injEq, Prod.mk.injEq] at h
        rw [← h.2]
        exact (insertAux_spec hf fuel st s hWF haux).1
  · by_cases hn : isNull k = true
    · have hrm : remove hf isNull st k = (false, st) := by
        simp [remove, hn]
      rw [hrm]
      exact hWF
    · have hnull' := Bool.of_not_eq_true hn
      obtain ⟨-, hno, hyes⟩ := remove_spec hf isNull hWF hnull'
      by_cases hLk : LiveK st k
      · exact (hyes hLk).1
      · rw [hno hLk]
        exact hWF

theorem c8_witness :
    WF hfId stW ∧
    (stW.item_count ≤ stW.table_size ∧
      stW.item_count = liveCount stW ∧
      (∀ b st', insert hfId noNull 2 stW 1 9 = some (b, st') → WF hfId st') ∧
      WF hfId (remove hfId noNull stW 1).2 ∧
      WF hfId (find hfId noNull stW 1).2 ∧
      WF hfId (resize hfId stW)) :=
  ⟨by decide, c8_invariants_preserved hfId noNull stW 1 9 2 (by decide)⟩

/-- C9: under the caller's precondition that the capacity is positive,
every index the operations use to access the slot vector is in bounds:
the hash start index `hash(key) % table_size` and the probe's answers
(`found`/`empty`) are all `< table_size`, and the `+1 mod table_size`
step stays `< table_size`.  The constructor itself performs no
positivity check: `mkTable` stores any capacity, `0` included, so the
precondition is the caller's obligation. -/
theorem c9_index_bounds (st : HT K V) (k : K) (c : Nat) (h0 : 0 < st.table_size) :
    hashIdx hf st k < st.table_size ∧
    (∀ i, probe hf st k = .found i → i < st.table_size) ∧
    (∀ i, probe hf st k = .empty i → i < st.table_size) ∧
    (∀ idx, (idx + 1) % st.table_size < st.table_size) ∧
    (mkTable K V c).table_size = c ∧
    (mkTable K V c).table.length = c := by
  refine ⟨hashIdx_lt hf h0, ?_, ?_, fun idx => Nat.mod_lt _ h0, rfl, ?_⟩
  · intro i h
    exact (probe_found_live hf h0 h).1
  · intro i h
    exact (probe_empty_slot hf h0 h).2.1
  · simp [mkTable]

theorem c9_witness :
    0 < stW.table_size ∧
    (hashIdx hfId stW 3 < stW.table_size ∧
      (∀ i, probe hfId stW 3 = .found i → i < stW.table_size) ∧
      (∀ i, probe hfId stW 3 = .empty i → i < stW.table_size) ∧
      (∀ idx, (idx + 1) % stW.table_size < stW.table_size) ∧
      (mkTable Nat Nat 0).table_size = 0 ∧
      (mkTable Nat Nat 0).table.length = 0) :=
  ⟨by decide, c9_index_bounds hfId stW 3 0 (by decide)⟩

end HashTable
